import Mathlib

/-!
# GLSL-Include: the recursive include resolver of `glsl_include.hpp`

A shallow embedding of `glsl_include::ShaderLoader` and a verification of its
include-resolution behaviour.

* A `std::string` is a list of characters (`Str`).
* `size_t` results of `find` / `find_last_of` are natural numbers, with
  `npos = 2^64 - 1`; the one place where the source lets an index wrap
  (`start_index + 1` in `extract_first_between`) is reduced modulo `2^64`.
* The file system is a function from a path to the content of the file when
  `std::ifstream` can open it; `getlines` is the `while (getline(file, line))`
  loop over that content.
* `already_included` is threaded through the calls explicitly; what is written
  to `std::cout` is returned as the list of messages, in order.
* `load_shader` recurses along the include graph, so it takes a fuel argument
  bounding the recursion depth; `none` means that the fuel ran out.
-/

namespace glsl_include

/-- A `std::string`: its characters in order. -/
abbrev Str := List Char

/-- The preprocessor branch that was compiled in (`_WIN32`, `__linux__`, or neither). -/
inductive HostOS
  | win32
  | linux
  | other
  deriving DecidableEq

/-- The file system seen through `std::ifstream`: the content of the file at a
path when the stream is `good()` after opening, `none` when it is not. -/
abbrev FS := Str → Option Str

/-- The value `std::string::npos` of a 64-bit `size_t`. -/
def npos : Nat := 2 ^ 64 - 1

/-- The lines read by `while (getline(file, line))`: `cur` holds the characters
of the line being read, in reverse. A line is ended by `'\n'`, which is
discarded; at the end of the content a last unterminated line is returned when
at least one character was read. -/
def getlines_aux : Str → Str → List Str
  | cur, [] => if cur = [] then [] else [cur.reverse]
  | cur, c :: cs =>
    if c = '\n' then cur.reverse :: getlines_aux [] cs
    else getlines_aux (c :: cur) cs

/-- All lines that successive `getline` calls return on a file content. -/
def getlines (content : Str) : List Str := getlines_aux [] content

/-- Scan of `std::string::find(const std::string&)`: `i` is the index of the head
of the remaining text. -/
def find_aux (pat : Str) : Str → Nat → Nat
  | [], i => if pat = [] then i else npos
  | c :: cs, i => if pat.isPrefixOf (c :: cs) then i else find_aux pat cs (i + 1)

/-- The call `s.find(pat)`: the index of the first occurrence of `pat` in `s`, or `npos`. -/
def find (s pat : Str) : Nat := find_aux pat s 0

/-- Scan of `std::string::find(char, pos)`: `i` is the index of the head of the
remaining text. -/
def find_char_aux (c : Char) : Str → Nat → Nat
  | [], _ => npos
  | x :: xs, i => if x = c then i else find_char_aux c xs (i + 1)

/-- The call `s.find(c, pos)`: the first index `≥ pos` holding `c`, or `npos`. -/
def find_char (s : Str) (c : Char) (pos : Nat) : Nat :=
  find_char_aux c (s.drop pos) pos

/-- Scan of `std::string::find_last_of`: `best` is the last index found so far. -/
def find_last_of_aux (set : Str) : Str → Nat → Nat → Nat
  | [], _, best => best
  | c :: cs, i, best => find_last_of_aux set cs (i + 1) (if c ∈ set then i else best)

/-- The call `s.find_last_of(set)`: the last index holding a character of `set`, or `npos`. -/
def find_last_of (s set : Str) : Nat := find_last_of_aux set s 0 npos

/-- The call `s.substr(pos, n)` for `pos ≤ s.size()`. -/
def substr (s : Str) (pos n : Nat) : Str := (s.drop pos).take n

/-- The call `std::replace(s.begin(), s.end(), a, b)`. -/
def replace (s : Str) (a b : Char) : Str := s.map (fun c => if c = a then b else c)

/-- The message written by `extract_first_between` when a symbol is missing. -/
def msg_symbol_not_found (start_symbol end_symbol : Char) : Str :=
  "ERROR [ ShaderLoader::extract_first_between ]: Start '".toList ++ [start_symbol] ++
    "' or end symbol '".toList ++ [end_symbol] ++ "' not found\n".toList

/-- The message written by `load_shader` when the stream is not `good()`. -/
def msg_open_failed (file_path : Str) : Str :=
  "ERROR [ ShaderLoader::load_shader ]: Failed to start fstream, check if '".toList ++
    file_path ++ "' exists\n".toList

/-- The message written by `load_shader` when a file names itself. -/
def msg_self_include (file_path : Str) : Str :=
  "WARNING [ ShaderLoader::load_shader ]: '".toList ++ file_path ++
    "' tried to include itself\n".toList

/-- The helper `ShaderLoader::extract_path`: the path up to and including its
last `'\\'` or `'/'`, or the empty string. -/
def extract_path (path : Str) : Str :=
  let pos := find_last_of path ['\\', '/']
  if pos ≠ npos then substr path 0 (pos + 1) else []

/-- The helper `ShaderLoader::extract_first_between`: the extracted string and
what it writes to `std::cout`. -/
def extract_first_between (input : Str) (start_symbol end_symbol : Char) : Str × List Str :=
  let start_index := find_char input start_symbol 0
  let end_index := find_char input end_symbol ((start_index + 1) % 2 ^ 64)
  if start_index ≠ npos ∧ end_index ≠ npos then
    (substr input (start_index + 1) (end_index - start_index - 1), [])
  else
    ([], [msg_symbol_not_found start_symbol end_symbol])

/-- The separator replacement selected by the preprocessor. -/
def normalize_separators (os : HostOS) (rel_include_path : Str) : Str :=
  match os with
  | .win32 => replace rel_include_path '/' '\\'
  | .linux => replace rel_include_path '\\' '/'
  | .other => rel_include_path

/-- What a call of `load_shader` leaves behind: the returned string, the member
`already_included` after the call, and the messages written to `std::cout`. -/
structure Outcome where
  ret_data : Str
  already_included : List Str
  cout : List Str
  deriving DecidableEq

/-- The test `line.find(include_keyword) == 0` of the line loop. -/
def is_directive (include_keyword line : Str) : Bool :=
  find line include_keyword == 0

/-- The argument of a directive line and the messages of its extraction. -/
def include_argument (include_keyword line : Str) : Str × List Str :=
  extract_first_between (line.drop include_keyword.length) '"' '"'

/-- The local `full_include_path` computed for a directive line of `file_path`. -/
def full_include_path (os : HostOS) (include_keyword file_path line : Str) : Str :=
  extract_path file_path ++ normalize_separators os (include_argument include_keyword line).1

/-- The body of the `while (getline(file, line))` loop of `load_shader`, run over
the remaining lines of `file_path`. `recurse` is the recursive call
`load_shader(full_include_path)`; `acc` holds `ret_data`, `already_included` and
the messages so far. -/
def process_lines (os : HostOS) (include_keyword : Str)
    (recurse : Str → List Str → Option Outcome) (file_path : Str) :
    List Str → Outcome → Option Outcome
  | [], acc => some acc
  | line :: rest, acc =>
    if is_directive include_keyword line then
      let arg := include_argument include_keyword line
      let full := full_include_path os include_keyword file_path line
      if file_path = full then
        process_lines os include_keyword recurse file_path rest
          { acc with cout := acc.cout ++ arg.2 ++ [msg_self_include file_path] }
      else if full ∈ acc.already_included then
        process_lines os include_keyword recurse file_path rest
          { acc with cout := acc.cout ++ arg.2 }
      else
        match recurse full (acc.already_included ++ [full]) with
        | none => none
        | some sub =>
          process_lines os include_keyword recurse file_path rest
            { ret_data := acc.ret_data ++ (sub.ret_data ++ ['\n'])
              already_included := sub.already_included
              cout := acc.cout ++ arg.2 ++ sub.cout }
    else
      process_lines os include_keyword recurse file_path rest
        { acc with ret_data := acc.ret_data ++ (line ++ ['\n']) }

/-- The method `ShaderLoader::load_shader`, called with the member
`already_included` as given. The branch `else` of `if (file.is_open())` is not
reachable: a stream that is `good()` after construction is open. -/
def load_shader (os : HostOS) (fs : FS) (include_keyword : Str) :
    Nat → Str → List Str → Option Outcome
  | 0, _, _ => none
  | fuel + 1, file_path, already_included =>
    let stack_top : Bool := already_included.length == 0
    let included := if stack_top then already_included ++ [file_path] else already_included
    match fs file_path with
    | none =>
      some { ret_data := [], already_included := included, cout := [msg_open_failed file_path] }
    | some content =>
      match process_lines os include_keyword (load_shader os fs include_keyword fuel) file_path
          (getlines content) { ret_data := [], already_included := included, cout := [] } with
      | none => none
      | some out =>
        some { out with already_included := if stack_top then [] else out.already_included }

/-- The number of paths of `F` outside the visited set: the measure that bounds
the depth of the recursion when `F` holds every path that can be opened. -/
def unvisited (F : Finset Str) (included : List Str) : Nat :=
  (F.filter (fun p => p ∉ included)).card

/-- Every line followed by one newline, concatenated in order. -/
def unlines : List Str → Str
  | [] => []
  | l :: ls => l ++ ['\n'] ++ unlines ls

/-- A file system given by a finite table of paths and contents. -/
def fs_of (table : List (Str × Str)) : FS :=
  fun p => (table.find? (fun e => e.1 == p)).map Prod.snd

/-- A directive line of `file_path` whose computed target is `file_path` itself:
the two tests of the line loop that lead to the self-include warning. -/
def is_self_include (os : HostOS) (include_keyword file_path line : Str) : Bool :=
  is_directive include_keyword line &&
    decide (file_path = full_include_path os include_keyword file_path line)

/-- The paths listed in a table, as a finite set. -/
def paths_of (table : List (Str × Str)) : Finset Str := (table.map Prod.fst).toFinset

/-- Two successive calls `load_shader(p)` and `load_shader(q)` on one loader that
starts with an empty `already_included`: the outcome of the second call. -/
def load_shader_then (os : HostOS) (fs : FS) (include_keyword : Str) (fuel : Nat)
    (p q : Str) : Option Outcome :=
  (load_shader os fs include_keyword fuel p []).bind
    (fun first => load_shader os fs include_keyword fuel q first.already_included)

/-! ### Example file systems and keyword -/

/-- The keyword `#inc` of the examples. -/
def kw_inc : Str := "#inc".toList

/-- The files `a.glsl` (a directive naming `b.glsl`, then `foo();`) and `b.glsl` (`bar();`). -/
def fs_ab : FS :=
  fs_of [("a.glsl".toList, "#inc \"b.glsl\"\nfoo();".toList), ("b.glsl".toList, "bar();".toList)]

/-- A single empty file `e.glsl`. -/
def fs_empty_file : FS := fs_of [("e.glsl".toList, [])]

/-- A single file `plain.glsl` with two lines, the last one unterminated. -/
def fs_plain : FS := fs_of [("plain.glsl".toList, "in vec3 p;\nout vec4 c;".toList)]

/-- A diamond: `a.glsl` names `b.glsl` and `c.glsl`, which both name `d.glsl`. -/
def fs_diamond : FS :=
  fs_of [("a.glsl".toList, "#inc \"b.glsl\"\n#inc \"c.glsl\"\n".toList),
         ("b.glsl".toList, "b1\n#inc \"d.glsl\"\n".toList),
         ("c.glsl".toList, "#inc \"d.glsl\"\nc2\n".toList),
         ("d.glsl".toList, "dd\n".toList)]

/-- Two files naming each other: `a.glsl` is `x`, a directive for `b.glsl`, `y`,
and `b.glsl` is `u`, a directive for `a.glsl`, `v`. -/
def table_cycle : List (Str × Str) :=
  [("a.glsl".toList, "x\n#inc \"b.glsl\"\ny\n".toList),
   ("b.glsl".toList, "u\n#inc \"a.glsl\"\nv\n".toList)]

/-- The file system of `table_cycle`. -/
def fs_cycle : FS := fs_of table_cycle

/-- A single file `a.glsl`: a directive without quotes, then `foo();`. -/
def fs_malformed : FS := fs_of [("a.glsl".toList, "#inc b.glsl\nfoo();\n".toList)]

/-- A single file `s.glsl`: `a`, a directive naming `s.glsl` itself, `b`. -/
def fs_self : FS := fs_of [("s.glsl".toList, "a\n#inc \"s.glsl\"\nb\n".toList)]

/-- The file `s.glsl` of `fs_self` without its directive line. -/
def fs_self_removed : FS := fs_of [("s.glsl".toList, "a\nb\n".toList)]

/-- A single file `q.glsl` whose only line names `p.glsl`, which does not exist. -/
def fs_q : FS := fs_of [("q.glsl".toList, "#inc \"p.glsl\"\n".toList)]

/-- The file system in which nothing can be opened. -/
def fs_none : FS := fs_of []

/-- A single file `m.glsl`: `one`, a directive naming the missing `gone.glsl`, `two`. -/
def fs_missing_include : FS :=
  fs_of [("m.glsl".toList, "one\n#inc \"gone.glsl\"\ntwo\n".toList)]

/-- Nested directories: `shaders/main.glsl` names `sub/b.glsl`, which names
`c.glsl`; there is a `c.glsl` next to each of them. -/
def fs_nested : FS :=
  fs_of [("shaders/main.glsl".toList, "#inc \"sub/b.glsl\"\n".toList),
         ("shaders/sub/b.glsl".toList, "#inc \"c.glsl\"\n".toList),
         ("shaders/sub/c.glsl".toList, "inner\n".toList),
         ("shaders/c.glsl".toList, "outer\n".toList)]

/-- A file `a.glsl` naming `sub\x.glsl` and then `sub/x.glsl`, and the file `sub/x.glsl`. -/
def fs_separators : FS :=
  fs_of [("a.glsl".toList, "#inc \"sub\\x.glsl\"\n#inc \"sub/x.glsl\"\n".toList),
         ("sub/x.glsl".toList, "xx\n".toList)]

/-! ### Flattened text and the record of recursive calls -/

/-- A line of the flattened text: free of newlines, not a directive, and either
empty or read from some file. -/
def flat_line (fs : FS) (include_keyword : Str) (l : Str) : Prop :=
  '\n' ∉ l ∧ ¬ include_keyword <+: l ∧
    (l = [] ∨ ∃ p content, fs p = some content ∧ l ∈ getlines content)

/-- A flattened text: lines that are `flat_line`, each followed by a newline. -/
def flat_text (fs : FS) (include_keyword : Str) (s : Str) : Prop :=
  ∃ pieces, s = unlines pieces ∧ ∀ l ∈ pieces, flat_line fs include_keyword l

/-- A single file `flat.glsl` holding what `a.glsl` of `fs_ab` is resolved to. -/
def fs_flattened : FS := fs_of [("flat.glsl".toList, "bar();\n\nfoo();\n".toList)]

/-- The paths on which the line loop calls `load_shader`, in order, with the
calls made inside those calls: a record kept beside `process_lines`, which it
follows branch by branch. `calls` gives the paths of the calls made inside one
recursive call. -/
def process_lines_calls (os : HostOS) (include_keyword : Str)
    (recurse : Str → List Str → Option Outcome) (calls : Str → List Str → List Str)
    (file_path : Str) : List Str → Outcome → List Str
  | [], _ => []
  | line :: rest, acc =>
    if is_directive include_keyword line then
      let arg := include_argument include_keyword line
      let full := full_include_path os include_keyword file_path line
      if file_path = full then
        process_lines_calls os include_keyword recurse calls file_path rest
          { acc with cout := acc.cout ++ arg.2 ++ [msg_self_include file_path] }
      else if full ∈ acc.already_included then
        process_lines_calls os include_keyword recurse calls file_path rest
          { acc with cout := acc.cout ++ arg.2 }
      else
        match recurse full (acc.already_included ++ [full]) with
        | none => full :: calls full (acc.already_included ++ [full])
        | some sub =>
          full :: calls full (acc.already_included ++ [full]) ++
            process_lines_calls os include_keyword recurse calls file_path rest
              { ret_data := acc.ret_data ++ (sub.ret_data ++ ['\n'])
                already_included := sub.already_included
                cout := acc.cout ++ arg.2 ++ sub.cout }
    else
      process_lines_calls os include_keyword recurse calls file_path rest
        { acc with ret_data := acc.ret_data ++ (line ++ ['\n']) }

/-- The paths on which `load_shader` is called recursively during one call, in
order: the record of `process_lines_calls` over the lines of the file. -/
def load_shader_calls (os : HostOS) (fs : FS) (include_keyword : Str) :
    Nat → Str → List Str → List Str
  | 0, _, _ => []
  | fuel + 1, file_path, already_included =>
    let stack_top : Bool := already_included.length == 0
    let included := if stack_top then already_included ++ [file_path] else already_included
    match fs file_path with
    | none => []
    | some content =>
      process_lines_calls os include_keyword (load_shader os fs include_keyword fuel)
        (load_shader_calls os fs include_keyword fuel) file_path (getlines content)
        { ret_data := [], already_included := included, cout := [] }

end glsl_include

namespace glsl_include

/-! ## Basic facts about the string helpers -/

theorem find_aux_pos (pat : Str) : ∀ (s : Str) (i : Nat), 0 < i → 0 < find_aux pat s i := by
  intro s
  induction s with
  | nil =>
    intro i hi
    unfold find_aux
    split
    · exact hi
    · decide
  | cons c cs ih =>
    intro i hi
    unfold find_aux
    split
    · exact hi
    · exact ih (i + 1) (Nat.succ_pos i)

/-- The test of the line loop holds exactly when the keyword is a prefix of the line. -/
theorem is_directive_iff (kw line : Str) : is_directive kw line = true ↔ kw <+: line := by
  unfold is_directive find
  cases line with
  | nil =>
    unfold find_aux
    by_cases h : kw = []
    · simp [h]
    · simp [h, npos]
  | cons c cs =>
    unfold find_aux
    by_cases h : kw.isPrefixOf (c :: cs) = true
    · simp only [h, if_true]
      simpa using List.isPrefixOf_iff_prefix.mp h
    · have hp := find_aux_pos kw cs 1 Nat.one_pos
      have h2 : ¬ kw <+: c :: cs := fun hh => h (List.isPrefixOf_iff_prefix.mpr hh)
      simp only [h]
      simp only [h2, iff_false]
      simp
      omega

theorem is_directive_false (kw line : Str) (h : ¬ kw <+: line) : is_directive kw line = false := by
  cases hd : is_directive kw line with
  | false => rfl
  | true => exact absurd ((is_directive_iff kw line).mp hd) h

theorem unlines_append (xs ys : List Str) : unlines (xs ++ ys) = unlines xs ++ unlines ys := by
  induction xs with
  | nil => rfl
  | cons x xs ih => simp [unlines, ih]

/-! ## One step of the line loop -/

section steps

variable (os : HostOS) (kw : Str) (recurse : Str → List Str → Option Outcome) (fp : Str)

theorem process_lines_plain_step (line : Str) (rest : List Str) (acc : Outcome)
    (h : ¬ kw <+: line) :
    process_lines os kw recurse fp (line :: rest) acc =
      process_lines os kw recurse fp rest
        { acc with ret_data := acc.ret_data ++ (line ++ ['\n']) } := by
  simp [process_lines, is_directive_false kw line h]

theorem process_lines_self_step (line : Str) (rest : List Str) (acc : Outcome)
    (h : kw <+: line) (hself : full_include_path os kw fp line = fp) :
    process_lines os kw recurse fp (line :: rest) acc =
      process_lines os kw recurse fp rest
        { acc with cout := acc.cout ++ (include_argument kw line).2 ++ [msg_self_include fp] } := by
  simp [process_lines, (is_directive_iff kw line).mpr h, hself]

theorem process_lines_dup_step (line : Str) (rest : List Str) (acc : Outcome)
    (h : kw <+: line) (hself : full_include_path os kw fp line ≠ fp)
    (hdup : full_include_path os kw fp line ∈ acc.already_included) :
    process_lines os kw recurse fp (line :: rest) acc =
      process_lines os kw recurse fp rest
        { acc with cout := acc.cout ++ (include_argument kw line).2 } := by
  simp [process_lines, (is_directive_iff kw line).mpr h, Ne.symm hself, hdup]

theorem process_lines_new_step (line : Str) (rest : List Str) (acc sub : Outcome)
    (h : kw <+: line) (hself : full_include_path os kw fp line ≠ fp)
    (hnew : full_include_path os kw fp line ∉ acc.already_included)
    (hsub : recurse (full_include_path os kw fp line)
      (acc.already_included ++ [full_include_path os kw fp line]) = some sub) :
    process_lines os kw recurse fp (line :: rest) acc =
      process_lines os kw recurse fp rest
        { ret_data := acc.ret_data ++ (sub.ret_data ++ ['\n'])
          already_included := sub.already_included
          cout := acc.cout ++ (include_argument kw line).2 ++ sub.cout } := by
  simp [process_lines, (is_directive_iff kw line).mpr h, Ne.symm hself, hnew, hsub]

theorem process_lines_plain : ∀ (ls : List Str) (acc : Outcome), (∀ l ∈ ls, ¬ kw <+: l) →
    process_lines os kw recurse fp ls acc =
      some { acc with ret_data := acc.ret_data ++ unlines ls } := by
  intro ls
  induction ls with
  | nil => intro acc _; simp [process_lines, unlines]
  | cons l ls ih =>
    intro acc h
    rw [process_lines_plain_step os kw recurse fp l ls acc (h l (List.mem_cons_self _ _)),
      ih _ (fun x hx => h x (List.mem_cons_of_mem _ hx))]
    simp [unlines]

theorem process_lines_append : ∀ (xs ys : List Str) (acc : Outcome),
    process_lines os kw recurse fp (xs ++ ys) acc =
      (process_lines os kw recurse fp xs acc).bind (process_lines os kw recurse fp ys) := by
  intro xs
  induction xs with
  | nil => intro ys acc; simp [process_lines]
  | cons x xs ih =>
    intro ys acc
    simp only [List.cons_append, process_lines]
    split
    · split
      · exact ih _ _
      · split
        · exact ih _ _
        · split
          · simp
          · exact ih _ _
    · exact ih _ _

end steps

/-- The call on a path that cannot be opened. -/
theorem load_shader_closed (os : HostOS) (fs : FS) (kw : Str) (fuel : Nat) (fp : Str)
    (included : List Str) (hfile : fs fp = none) :
    load_shader os fs kw (fuel + 1) fp included =
      some { ret_data := []
             already_included := if included = [] then [fp] else included
             cout := [msg_open_failed fp] } := by
  cases included <;> simp [load_shader, hfile]

/-- The call on a path that can be opened: the line loop over its lines, and the
reset of `already_included` when the call is the outermost one. -/
theorem load_shader_open (os : HostOS) (fs : FS) (kw : Str) (fuel : Nat) (fp content : Str)
    (included : List Str) (hfile : fs fp = some content) :
    load_shader os fs kw (fuel + 1) fp included =
      (process_lines os kw (load_shader os fs kw fuel) fp (getlines content)
        { ret_data := [], already_included := if included = [] then [fp] else included,
          cout := [] }).map
        (fun out =>
          { out with already_included := if included = [] then [] else out.already_included }) := by
  rw [load_shader]
  simp only [hfile]
  cases included with
  | nil =>
    simp only [List.length_nil, beq_self_eq_true, if_true, List.nil_append]
    cases process_lines os kw (load_shader os fs kw fuel) fp (getlines content)
      { ret_data := [], already_included := [fp], cout := [] } <;> rfl
  | cons x xs =>
    have hlen : ((x :: xs).length == 0) = false := by simp
    have hne : (x :: xs) ≠ [] := List.cons_ne_nil x xs
    simp only [hlen, hne, Bool.false_eq_true, if_false]
    cases process_lines os kw (load_shader os fs kw fuel) fp (getlines content)
      { ret_data := [], already_included := x :: xs, cout := [] } <;> rfl

/-- A file without directive lines: the call returns its lines, each followed by a newline. -/
theorem load_shader_plain (os : HostOS) (fs : FS) (kw : Str) (fuel : Nat) (fp content : Str)
    (included : List Str) (hfile : fs fp = some content)
    (hplain : ∀ l ∈ getlines content, ¬ kw <+: l) :
    load_shader os fs kw (fuel + 1) fp included =
      some { ret_data := unlines (getlines content)
             already_included := if included = [] then [] else included
             cout := [] } := by
  simp only [load_shader, hfile]
  rw [process_lines_plain os kw _ fp _ _ hplain]
  cases included <;> simp

/-- The lines of a content, each followed by a newline, give the content back up
to the final newline. -/
theorem unlines_getlines_aux : ∀ (s cur : Str),
    unlines (getlines_aux cur s) =
      if s.getLast? = some '\n' then cur.reverse ++ s
      else if cur = [] ∧ s = [] then [] else cur.reverse ++ s ++ ['\n'] := by
  intro s
  induction s with
  | nil =>
    intro cur
    by_cases hc : cur = []
    · simp [getlines_aux, hc, unlines]
    · simp [getlines_aux, hc, unlines]
  | cons c cs ih =>
    intro cur
    by_cases hnl : c = '\n'
    · subst hnl
      simp only [getlines_aux, if_true, unlines, ih []]
      cases cs with
      | nil => simp
      | cons x xs => by_cases hl : (x :: xs).getLast? = some '\n' <;> simp [List.getLast?_cons_cons, hl]
    · simp only [getlines_aux, hnl, if_false, ih (c :: cur)]
      cases cs with
      | nil => simp [hnl]
      | cons x xs => by_cases hl : (x :: xs).getLast? = some '\n' <;> simp [List.getLast?_cons_cons, hl]

theorem unlines_getlines (content : Str) :
    unlines (getlines content) =
      if content.getLast? = some '\n' then content
      else if content = [] then [] else content ++ ['\n'] := by
  simpa [getlines] using unlines_getlines_aux content []

/-! ## In-place substitution and flattening -/

/-- C1: a root file whose lines are `pre ++ [d] ++ post`, with `d` the only
directive line, naming a readable file `target ≠ root` without directive lines,
is resolved (empty visited set) to the lines of `pre`, then the lines of the
target, then one newline, then the lines of `post`, every line followed by a newline. -/
theorem load_shader_in_place_substitution (os : HostOS) (fs : FS) (kw : Str) (fuel : Nat)
    (root content target tcontent d : Str) (pre post : List Str)
    (hroot : fs root = some content)
    (hlines : getlines content = pre ++ [d] ++ post)
    (hpre : ∀ l ∈ pre, ¬ kw <+: l) (hpost : ∀ l ∈ post, ¬ kw <+: l)
    (hd : kw <+: d) (htarget : full_include_path os kw root d = target)
    (hne : target ≠ root)
    (ht : fs target = some tcontent) (htplain : ∀ l ∈ getlines tcontent, ¬ kw <+: l) :
    load_shader os fs kw (fuel + 2) root [] =
      some { ret_data := unlines pre ++ unlines (getlines tcontent) ++ ['\n'] ++ unlines post
             already_included := []
             cout := (include_argument kw d).2 } := by
  subst htarget
  have hsub := load_shader_plain os fs kw fuel _ tcontent
    ([root] ++ [full_include_path os kw root d]) ht htplain
  simp only [load_shader, hroot, hlines]
  rw [process_lines_append, process_lines_append, process_lines_plain os kw _ root pre _ hpre]
  simp only [Option.bind_some, Option.some_bind, List.length_nil, beq_self_eq_true, if_true,
    List.nil_append]
  rw [process_lines_new_step os kw _ root d [] _ _ hd hne (by simpa using hne) hsub]
  simp only [process_lines, Option.some_bind, Option.bind_some]
  rw [process_lines_plain os kw _ root post _ hpost]
  simp

/-- The concrete scenario of C1: `a.glsl` is resolved to `bar();\n\nfoo();\n`. -/
theorem load_shader_in_place_substitution_witness :
    load_shader .linux fs_ab kw_inc 2 "a.glsl".toList [] =
      some { ret_data := "bar();\n\nfoo();\n".toList, already_included := [], cout := [] } :=
  load_shader_in_place_substitution .linux fs_ab kw_inc 0 "a.glsl".toList
    "#inc \"b.glsl\"\nfoo();".toList "b.glsl".toList "bar();".toList "#inc \"b.glsl\"".toList
    [] ["foo();".toList] (by decide) (by decide) (by decide) (by decide) (by decide) (by decide)
    (by decide) (by decide) (by decide)

/-- C2 as stated fails on an empty file: its content does not end with a newline,
and the call returns the empty string, not the content plus a newline. -/
theorem load_shader_empty_file_counterexample :
    fs_empty_file "e.glsl".toList = some [] ∧ kw_inc ≠ [] ∧
    (∀ l ∈ getlines [], ¬ kw_inc <+: l) ∧
    ([] : Str).getLast? ≠ some '\n' ∧
    (load_shader .linux fs_empty_file kw_inc 1 "e.glsl".toList []).map Outcome.ret_data =
      some [] ∧
    (load_shader .linux fs_empty_file kw_inc 1 "e.glsl".toList []).map Outcome.ret_data ≠
      some ([] ++ ['\n']) := by
  decide

/-- C2 (amended): a readable file none of whose lines has the keyword as a prefix
is resolved (empty visited set) to its lines, each followed by one newline; this
is the content itself when the content ends with a newline, the content plus one
newline when the content is not empty and does not end with a newline, and the
empty string when the content is empty. -/
theorem load_shader_no_directives (os : HostOS) (fs : FS) (kw : Str) (fuel : Nat)
    (fp content : Str) (hfile : fs fp = some content)
    (hplain : ∀ l ∈ getlines content, ¬ kw <+: l) :
    load_shader os fs kw (fuel + 1) fp [] =
      some { ret_data := unlines (getlines content), already_included := [], cout := [] } ∧
    (content.getLast? = some '\n' → unlines (getlines content) = content) ∧
    (content ≠ [] → content.getLast? ≠ some '\n' →
      unlines (getlines content) = content ++ ['\n']) ∧
    (content = [] → unlines (getlines content) = []) := by
  refine ⟨?_, ?_, ?_, ?_⟩
  · simpa using load_shader_plain os fs kw fuel fp content [] hfile hplain
  · intro h; simp [unlines_getlines, h]
  · intro h1 h2; simp [unlines_getlines, h1, h2]
  · intro h; simp [unlines_getlines, h]

/-- The amended C2 on `plain.glsl`, whose content lacks the final newline. -/
theorem load_shader_no_directives_witness :
    load_shader .linux fs_plain kw_inc 1 "plain.glsl".toList [] =
      some { ret_data := "in vec3 p;\nout vec4 c;\n".toList, already_included := [], cout := [] } :=
  (load_shader_no_directives .linux fs_plain kw_inc 0 "plain.glsl".toList
    "in vec3 p;\nout vec4 c;".toList (by decide) (by decide)).1

/-! ## Files that cannot be opened -/

/-- C10: a root path that cannot be opened is resolved (empty visited set) to
the empty string, and the one message written is the file-open diagnostic, which
contains that path. -/
theorem load_shader_missing_root (os : HostOS) (fs : FS) (kw : Str) (fuel : Nat) (root : Str)
    (hmissing : fs root = none) :
    (load_shader os fs kw (fuel + 1) root []).map Outcome.ret_data = some [] ∧
    (load_shader os fs kw (fuel + 1) root []).map Outcome.cout =
      some [msg_open_failed root] ∧
    root <:+: msg_open_failed root := by
  refine ⟨by simp [load_shader, hmissing], by simp [load_shader, hmissing], ?_⟩
  exact ⟨_, _, rfl⟩

/-- C10 on the path `missing.glsl` of a file system without files. -/
theorem load_shader_missing_root_witness :
    (load_shader .linux fs_none kw_inc 1 "missing.glsl".toList []).map Outcome.ret_data =
      some [] :=
  (load_shader_missing_root .linux fs_none kw_inc 0 "missing.glsl".toList (by decide)).1

/-! ## Cycles and diamonds -/

/-- Lines `pre ++ d :: post` with `pre` and `post` free of directives: the loop
appends `pre`, runs the step of `d`, and appends `post`. -/
theorem process_lines_around (os : HostOS) (kw : Str)
    (recurse : Str → List Str → Option Outcome) (fp d : Str) (pre post : List Str)
    (acc : Outcome) (hpre : ∀ l ∈ pre, ¬ kw <+: l) (hpost : ∀ l ∈ post, ¬ kw <+: l) :
    process_lines os kw recurse fp (pre ++ d :: post) acc =
      (process_lines os kw recurse fp [d]
        { acc with ret_data := acc.ret_data ++ unlines pre }).map
        (fun o => { o with ret_data := o.ret_data ++ unlines post }) := by
  have hsplit : pre ++ d :: post = pre ++ ([d] ++ post) := by simp
  rw [hsplit, process_lines_append, process_lines_plain os kw recurse fp pre acc hpre]
  simp only [Option.some_bind]
  rw [process_lines_append]
  cases hstep : process_lines os kw recurse fp [d]
      { acc with ret_data := acc.ret_data ++ unlines pre } with
  | none => simp
  | some o => simp [process_lines_plain os kw recurse fp post o hpost]

/-- C4: two distinct readable files naming each other, each through its only
directive line: resolving `A` (empty visited set) returns the lines before the
directive of `A`, the lines of `B` around its directive, one newline, and the
lines after the directive of `A`; `A` is not expanded again inside `B`. -/
theorem load_shader_cycle (os : HostOS) (fs : FS) (kw : Str) (fuel : Nat)
    (A B contentA contentB dA dB : Str) (preA postA preB postB : List Str)
    (hAB : A ≠ B)
    (hA : fs A = some contentA) (hB : fs B = some contentB)
    (hlinesA : getlines contentA = preA ++ [dA] ++ postA)
    (hlinesB : getlines contentB = preB ++ [dB] ++ postB)
    (hdA : kw <+: dA) (hdB : kw <+: dB)
    (htA : full_include_path os kw A dA = B) (htB : full_include_path os kw B dB = A)
    (hpreA : ∀ l ∈ preA, ¬ kw <+: l) (hpostA : ∀ l ∈ postA, ¬ kw <+: l)
    (hpreB : ∀ l ∈ preB, ¬ kw <+: l) (hpostB : ∀ l ∈ postB, ¬ kw <+: l) :
    (load_shader os fs kw (fuel + 2) A []).map Outcome.ret_data =
      some (unlines preA ++ unlines preB ++ unlines postB ++ ['\n'] ++ unlines postA) := by
  have hsub : load_shader os fs kw (fuel + 1) B ([A] ++ [B]) =
      some { ret_data := unlines preB ++ unlines postB
             already_included := [A, B]
             cout := (include_argument kw dB).2 } := by
    simp only [load_shader, hB, hlinesB, List.append_assoc, List.singleton_append]
    rw [process_lines_around os kw _ B dB preB postB _ hpreB hpostB,
      process_lines_dup_step os kw _ B dB [] _ hdB (by rw [htB]; exact hAB)
        (by rw [htB]; simp)]
    simp [process_lines]
  simp only [load_shader, hA, hlinesA, List.append_assoc, List.singleton_append]
  rw [process_lines_around os kw _ A dA preA postA _ hpreA hpostA,
    process_lines_new_step os kw _ A dA [] _ _ hdA (by rw [htA]; exact hAB.symm)
      (by rw [htA]; simpa using hAB.symm) (by rw [htA]; simpa using hsub)]
  simp [process_lines]

/-- C4 on the files `a.glsl` and `b.glsl` that name each other. -/
theorem load_shader_cycle_witness :
    (load_shader .linux fs_cycle kw_inc 2 "a.glsl".toList []).map Outcome.ret_data =
      some "x\nu\nv\n\ny\n".toList :=
  load_shader_cycle .linux fs_cycle kw_inc 0 "a.glsl".toList "b.glsl".toList
    "x\n#inc \"b.glsl\"\ny\n".toList "u\n#inc \"a.glsl\"\nv\n".toList
    "#inc \"b.glsl\"".toList "#inc \"a.glsl\"".toList
    ["x".toList] ["y".toList] ["u".toList] ["v".toList]
    (by decide) (by decide) (by decide) (by decide) (by decide) (by decide) (by decide)
    (by decide) (by decide) (by decide) (by decide) (by decide) (by decide)

/-- Leading lines free of directives are appended, and the loop goes on with the rest. -/
theorem process_lines_pre (os : HostOS) (kw : Str)
    (recurse : Str → List Str → Option Outcome) (fp : Str) (pre rest : List Str)
    (acc : Outcome) (hpre : ∀ l ∈ pre, ¬ kw <+: l) :
    process_lines os kw recurse fp (pre ++ rest) acc =
      process_lines os kw recurse fp rest
        { acc with ret_data := acc.ret_data ++ unlines pre } := by
  rw [process_lines_append, process_lines_plain os kw recurse fp pre acc hpre]
  rfl

/-- C5: a diamond of four distinct readable files. `A` names `B` and later `C`,
`B` and `C` each name `D` through their only directive line, `D` has no
directive. Resolving `A` (empty visited set) emits the lines of `D` once, inside
the expansion of `B`; the directive for `D` inside `C` contributes nothing. -/
theorem load_shader_diamond (os : HostOS) (fs : FS) (kw : Str) (fuel : Nat)
    (A B C D contentA contentB contentC contentD dB dC dDb dDc : Str)
    (a1 a2 a3 b1 b2 c1 c2 : List Str)
    (hAB : A ≠ B) (hAC : A ≠ C) (hAD : A ≠ D) (hBC : B ≠ C) (hBD : B ≠ D) (hCD : C ≠ D)
    (hA : fs A = some contentA) (hB : fs B = some contentB)
    (hC : fs C = some contentC) (hD : fs D = some contentD)
    (hlinesA : getlines contentA = a1 ++ [dB] ++ a2 ++ [dC] ++ a3)
    (hlinesB : getlines contentB = b1 ++ [dDb] ++ b2)
    (hlinesC : getlines contentC = c1 ++ [dDc] ++ c2)
    (hdB : kw <+: dB) (hdC : kw <+: dC) (hdDb : kw <+: dDb) (hdDc : kw <+: dDc)
    (htB : full_include_path os kw A dB = B) (htC : full_include_path os kw A dC = C)
    (htDb : full_include_path os kw B dDb = D) (htDc : full_include_path os kw C dDc = D)
    (ha1 : ∀ l ∈ a1, ¬ kw <+: l) (ha2 : ∀ l ∈ a2, ¬ kw <+: l) (ha3 : ∀ l ∈ a3, ¬ kw <+: l)
    (hb1 : ∀ l ∈ b1, ¬ kw <+: l) (hb2 : ∀ l ∈ b2, ¬ kw <+: l)
    (hc1 : ∀ l ∈ c1, ¬ kw <+: l) (hc2 : ∀ l ∈ c2, ¬ kw <+: l)
    (hplainD : ∀ l ∈ getlines contentD, ¬ kw <+: l) :
    (load_shader os fs kw (fuel + 3) A []).map Outcome.ret_data =
      some (unlines a1 ++
        (unlines b1 ++ unlines (getlines contentD) ++ ['\n'] ++ unlines b2) ++ ['\n'] ++
        unlines a2 ++ (unlines c1 ++ unlines c2) ++ ['\n'] ++ unlines a3) := by
  have hsubD := load_shader_plain os fs kw fuel D contentD [A, B, D] hD hplainD
  have hsubB : load_shader os fs kw (fuel + 2) B [A, B] =
      some { ret_data := unlines b1 ++ (unlines (getlines contentD) ++ ['\n']) ++ unlines b2
             already_included := [A, B, D]
             cout := (include_argument kw dDb).2 } := by
    rw [load_shader_open os fs kw (fuel + 1) B contentB _ hB]
    simp only [hlinesB, List.append_assoc, List.singleton_append, List.cons_append,
    List.nil_append, if_true, if_false, reduceCtorEq]
    rw [process_lines_around os kw _ B dDb b1 b2 _ hb1 hb2,
      process_lines_new_step os kw _ B dDb [] _ _ hdDb (by rw [htDb]; exact hBD.symm)
        (by rw [htDb]; simp [hAD.symm, hBD.symm]) (by rw [htDb]; simpa using hsubD)]
    simp [process_lines]
  have hsubC : load_shader os fs kw (fuel + 2) C [A, B, D, C] =
      some { ret_data := unlines c1 ++ unlines c2
             already_included := [A, B, D, C]
             cout := (include_argument kw dDc).2 } := by
    rw [load_shader_open os fs kw (fuel + 1) C contentC _ hC]
    simp only [hlinesC, List.append_assoc, List.singleton_append, List.cons_append,
    List.nil_append, if_true, if_false, reduceCtorEq]
    rw [process_lines_around os kw _ C dDc c1 c2 _ hc1 hc2,
      process_lines_dup_step os kw _ C dDc [] _ hdDc (by rw [htDc]; exact hCD.symm)
        (by rw [htDc]; simp)]
    simp [process_lines]
  rw [load_shader_open os fs kw (fuel + 2) A contentA _ hA]
  simp only [hlinesA, List.append_assoc, List.singleton_append, List.cons_append,
    List.nil_append, if_true, if_false, reduceCtorEq]
  rw [process_lines_pre os kw _ A a1 _ _ ha1,
    process_lines_new_step os kw _ A dB _ _ _ hdB (by rw [htB]; exact hAB.symm)
      (by rw [htB]; simpa using hAB.symm) (by rw [htB]; simpa using hsubB),
    process_lines_pre os kw _ A a2 _ _ ha2,
    process_lines_new_step os kw _ A dC _ _ _ hdC (by rw [htC]; exact hAC.symm)
      (by rw [htC]; simp [hAC.symm, hBC.symm, hCD]) (by rw [htC]; simpa using hsubC),
    process_lines_plain os kw _ A a3 _ ha3]
  simp

/-- C5 on the diamond `a.glsl`, `b.glsl`, `c.glsl`, `d.glsl`: the line `dd` of
`d.glsl` appears once, after `b1`. -/
theorem load_shader_diamond_witness :
    (load_shader .linux fs_diamond kw_inc 3 "a.glsl".toList []).map Outcome.ret_data =
      some "b1\ndd\n\n\nc2\n\n".toList :=
  load_shader_diamond .linux fs_diamond kw_inc 0
    "a.glsl".toList "b.glsl".toList "c.glsl".toList "d.glsl".toList
    "#inc \"b.glsl\"\n#inc \"c.glsl\"\n".toList "b1\n#inc \"d.glsl\"\n".toList
    "#inc \"d.glsl\"\nc2\n".toList "dd\n".toList
    "#inc \"b.glsl\"".toList "#inc \"c.glsl\"".toList
    "#inc \"d.glsl\"".toList "#inc \"d.glsl\"".toList
    [] [] [] ["b1".toList] [] [] ["c2".toList]
    (by decide) (by decide) (by decide) (by decide) (by decide) (by decide)
    (by decide) (by decide) (by decide) (by decide)
    (by decide) (by decide) (by decide)
    (by decide) (by decide) (by decide) (by decide)
    (by decide) (by decide) (by decide) (by decide)
    (by decide) (by decide) (by decide) (by decide) (by decide) (by decide) (by decide)
    (by decide)

/-! ## Termination -/

theorem unvisited_mono (F : Finset Str) (V W : List Str) (h : V ⊆ W) :
    unvisited F W ≤ unvisited F V := by
  unfold unvisited
  apply Finset.card_le_card
  intro x hx
  simp only [Finset.mem_filter] at hx ⊢
  exact ⟨hx.1, fun hxV => hx.2 (h hxV)⟩

theorem unvisited_lt (F : Finset Str) (V : List Str) (p : Str) (hp : p ∈ F) (hnew : p ∉ V) :
    unvisited F (V ++ [p]) < unvisited F V := by
  unfold unvisited
  apply Finset.card_lt_card
  rw [Finset.ssubset_iff_of_subset]
  · exact ⟨p, by simp [hp, hnew], by simp⟩
  · intro x hx
    simp only [Finset.mem_filter, List.mem_append, not_or] at hx ⊢
    exact ⟨hx.1, hx.2.1⟩

/-- The line loop never shrinks `already_included` when the recursive call does not. -/
theorem process_lines_grows (os : HostOS) (kw : Str)
    (recurse : Str → List Str → Option Outcome) (fp : Str)
    (hrec : ∀ p V o, recurse p V = some o → V ⊆ o.already_included) :
    ∀ (ls : List Str) (acc o : Outcome), process_lines os kw recurse fp ls acc = some o →
      acc.already_included ⊆ o.already_included := by
  intro ls
  induction ls with
  | nil =>
    intro acc o h
    simp only [process_lines, Option.some.injEq] at h
    subst h
    exact List.Subset.refl _
  | cons l ls ih =>
    intro acc o h
    simp only [process_lines] at h
    split at h
    · split at h
      · have h2 := ih _ _ h
        exact h2
      · split at h
        · have h2 := ih _ _ h
          exact h2
        · split at h
          · exact absurd h (by simp)
          · rename_i sub hsub
            have h1 := hrec _ _ _ hsub
            have h2 := ih _ _ h
            intro x hx
            exact h2 (h1 (List.mem_append_left _ hx))
    · have h2 := ih _ _ h
      exact h2

/-- A call of `load_shader` never removes a path from a non-empty `already_included`;
from the empty one the claim is void. -/
theorem load_shader_grows (os : HostOS) (fs : FS) (kw : Str) :
    ∀ (fuel : Nat) (p : Str) (V : List Str) (o : Outcome),
      load_shader os fs kw fuel p V = some o → V ⊆ o.already_included := by
  intro fuel
  induction fuel with
  | zero => intro p V o h; simp [load_shader] at h
  | succ fuel ih =>
    intro p V o h
    cases V with
    | nil => exact List.nil_subset _
    | cons x xs =>
      cases hfile : fs p with
      | none =>
        rw [load_shader_closed os fs kw fuel p _ hfile] at h
        simp only [reduceCtorEq, if_false, Option.some.injEq] at h
        subst h
        exact List.Subset.refl _
      | some content =>
        rw [load_shader_open os fs kw fuel p content _ hfile] at h
        simp only [reduceCtorEq, if_false, Option.map_eq_some'] at h
        obtain ⟨out, hout, rfl⟩ := h
        exact process_lines_grows os kw _ p ih _ _ _ hout

/-- The line loop returns when the recursive call returns on every path that
cannot be opened and on every visited set with a small enough measure. -/
theorem process_lines_returns (os : HostOS) (fs : FS) (kw : Str) (F : Finset Str)
    (hF : ∀ p, fs p ≠ none → p ∈ F)
    (recurse : Str → List Str → Option Outcome) (fp : Str) (n : Nat)
    (hgrow : ∀ p V o, recurse p V = some o → V ⊆ o.already_included)
    (hret : ∀ p V, fs p = none ∨ unvisited F V + 2 ≤ n → ∃ o, recurse p V = some o) :
    ∀ (ls : List Str) (acc : Outcome), unvisited F acc.already_included + 1 ≤ n →
      ∃ o, process_lines os kw recurse fp ls acc = some o := by
  intro ls
  induction ls with
  | nil => intro acc _; exact ⟨acc, rfl⟩
  | cons l ls ih =>
    intro acc hacc
    simp only [process_lines]
    split
    · split
      · exact ih _ hacc
      · split
        · exact ih _ hacc
        · rename_i hnew
          have hcall : fs (full_include_path os kw fp l) = none ∨
              unvisited F (acc.already_included ++ [full_include_path os kw fp l]) + 2 ≤ n := by
            by_cases hopen : fs (full_include_path os kw fp l) = none
            · exact Or.inl hopen
            · have := unvisited_lt F acc.already_included _ (hF _ hopen) hnew
              exact Or.inr (by omega)
          obtain ⟨sub, hsub⟩ := hret _ _ hcall
          rw [hsub]
          apply ih
          have h1 := hgrow _ _ _ hsub
          have h2 : acc.already_included ⊆ sub.already_included :=
            fun x hx => h1 (List.mem_append_left _ hx)
          have := unvisited_mono F _ _ h2
          show unvisited F sub.already_included + 1 ≤ n
          omega
    · exact ih _ hacc

/-- With fuel above the number of unvisited paths that can be opened, the call returns. -/
theorem load_shader_returns (os : HostOS) (fs : FS) (kw : Str) (F : Finset Str)
    (hF : ∀ p, fs p ≠ none → p ∈ F) :
    ∀ (fuel : Nat) (p : Str) (V : List Str),
      (fs p = none ∧ 1 ≤ fuel) ∨ unvisited F V + 2 ≤ fuel →
      ∃ o, load_shader os fs kw fuel p V = some o := by
  intro fuel
  induction fuel with
  | zero => intro p V h; omega
  | succ fuel ih =>
    intro p V h
    cases hfile : fs p with
    | none => exact ⟨_, load_shader_closed os fs kw fuel p V hfile⟩
    | some content =>
      have hfuel : unvisited F V + 1 ≤ fuel := by
        rcases h with h | h
        · rw [hfile] at h; exact absurd h.1 (by simp)
        · omega
      rw [load_shader_open os fs kw fuel p content V hfile]
      have hstart : unvisited F (if V = [] then [p] else V) + 1 ≤ fuel := by
        have : unvisited F (if V = [] then [p] else V) ≤ unvisited F V := by
          apply unvisited_mono
          by_cases hV : V = []
          · simp [hV]
          · simp [hV]
        omega
      obtain ⟨o, ho⟩ := process_lines_returns os fs kw F hF (load_shader os fs kw fuel) p fuel
        (load_shader_grows os fs kw fuel)
        (fun q W hq => ih q W (by rcases hq with hq | hq
                                  · exact Or.inl ⟨hq, by omega⟩
                                  · exact Or.inr hq))
        (getlines content) { ret_data := [], already_included := if V = [] then [p] else V,
                             cout := [] } hstart
      rw [ho]
      exact ⟨_, rfl⟩

/-- The line loop keeps its result when the recursive call is replaced by one
that returns the same on every argument on which the first one returns. -/
theorem process_lines_mono (os : HostOS) (kw : Str)
    (r r' : Str → List Str → Option Outcome) (fp : Str)
    (hrr : ∀ p V o, r p V = some o → r' p V = some o) :
    ∀ (ls : List Str) (acc o : Outcome), process_lines os kw r fp ls acc = some o →
      process_lines os kw r' fp ls acc = some o := by
  intro ls
  induction ls with
  | nil => intro acc o h; simpa [process_lines] using h
  | cons l ls ih =>
    intro acc o h
    simp only [process_lines] at h ⊢
    split
    · rename_i hd
      simp only [hd, if_true] at h
      split
      · rename_i hself
        simp only [hself.symm, if_true] at h
        exact ih _ _ (by simpa [← hself] using h)
      · rename_i hself
        simp only [hself, if_false] at h
        split
        · rename_i hdup
          simp only [hdup, if_true] at h
          exact ih _ _ h
        · rename_i hnew
          simp only [hnew, if_false] at h
          cases hsub : r (full_include_path os kw fp l)
              (acc.already_included ++ [full_include_path os kw fp l]) with
          | none => rw [hsub] at h; exact absurd h (by simp)
          | some sub =>
            rw [hsub] at h
            rw [hrr _ _ _ hsub]
            exact ih _ _ h
    · rename_i hd
      simp only [hd, Bool.false_eq_true, if_false] at h
      exact ih _ _ h

/-- More fuel does not change a result. -/
theorem load_shader_fuel_succ (os : HostOS) (fs : FS) (kw : Str) :
    ∀ (fuel : Nat) (p : Str) (V : List Str) (o : Outcome),
      load_shader os fs kw fuel p V = some o → load_shader os fs kw (fuel + 1) p V = some o := by
  intro fuel
  induction fuel with
  | zero => intro p V o h; simp [load_shader] at h
  | succ fuel ih =>
    intro p V o h
    cases hfile : fs p with
    | none =>
      rw [load_shader_closed os fs kw fuel p V hfile] at h
      rw [load_shader_closed os fs kw (fuel + 1) p V hfile]
      exact h
    | some content =>
      rw [load_shader_open os fs kw fuel p content V hfile] at h
      rw [load_shader_open os fs kw (fuel + 1) p content V hfile]
      simp only [Option.map_eq_some'] at h ⊢
      obtain ⟨out, hout, ho⟩ := h
      exact ⟨out, process_lines_mono os kw _ _ p ih _ _ _ hout, ho⟩

theorem load_shader_fuel_le (os : HostOS) (fs : FS) (kw : Str) (fuel fuel' : Nat) (p : Str)
    (V : List Str) (o : Outcome) (hle : fuel ≤ fuel')
    (h : load_shader os fs kw fuel p V = some o) :
    load_shader os fs kw fuel' p V = some o := by
  obtain ⟨k, rfl⟩ := Nat.exists_eq_add_of_le hle
  induction k with
  | zero => exact h
  | succ k ih => exact load_shader_fuel_succ os fs kw _ p V o (ih (Nat.le_add_right _ _))

/-- The line loop calls the recursion only on a path that is not yet in
`already_included`, passing `already_included` with that path appended: two
recursive calls that agree on such arguments give the same loop. -/
theorem process_lines_congr (os : HostOS) (kw : Str)
    (r r' : Str → List Str → Option Outcome) (fp : Str)
    (hrr : ∀ p W, p ∉ W → r p (W ++ [p]) = r' p (W ++ [p])) :
    ∀ (ls : List Str) (acc : Outcome),
      process_lines os kw r fp ls acc = process_lines os kw r' fp ls acc := by
  intro ls
  induction ls with
  | nil => intro acc; rfl
  | cons l ls ih =>
    intro acc
    simp only [process_lines]
    split
    · split
      · exact ih _
      · split
        · exact ih _
        · rename_i hnew
          rw [hrr _ _ hnew]
          cases r' (full_include_path os kw fp l)
              (acc.already_included ++ [full_include_path os kw fp l]) with
          | none => rfl
          | some sub => exact ih _
    · exact ih _

/-- C3: when every path that can be opened lies in a finite set `F`, the call
returns: with fuel above the number of paths of `F` outside the visited set
(plus two) the result exists and no longer depends on the fuel. The line loop
recurses only on a path outside the visited set, appended to it for the call,
and appending such a path that can be opened strictly lowers that number. -/
theorem load_shader_terminates (os : HostOS) (fs : FS) (kw : Str) (F : Finset Str)
    (hF : ∀ p, fs p ≠ none → p ∈ F) (root : Str) (V : List Str) :
    (∃ o, ∀ fuel, unvisited F V + 2 ≤ fuel → load_shader os fs kw fuel root V = some o) ∧
    (∀ (r r' : Str → List Str → Option Outcome) (fp : Str) (ls : List Str) (acc : Outcome),
      (∀ p W, p ∉ W → r p (W ++ [p]) = r' p (W ++ [p])) →
      process_lines os kw r fp ls acc = process_lines os kw r' fp ls acc) ∧
    (∀ p W, fs p ≠ none → p ∉ W → unvisited F (W ++ [p]) < unvisited F W) := by
  refine ⟨?_, ?_, ?_⟩
  · obtain ⟨o, ho⟩ := load_shader_returns os fs kw F hF (unvisited F V + 2) root V (Or.inr le_rfl)
    exact ⟨o, fun fuel hfuel => load_shader_fuel_le os fs kw _ fuel root V o hfuel ho⟩
  · intro r r' fp ls acc hrr
    exact process_lines_congr os kw r r' fp hrr ls acc
  · intro p W hp hnew
    exact unvisited_lt F W p (hF p hp) hnew

/-- Every path that a table-given file system opens is listed in the table. -/
theorem fs_of_paths (table : List (Str × Str)) (p : Str) (h : fs_of table p ≠ none) :
    p ∈ paths_of table := by
  unfold fs_of at h
  cases hfind : table.find? (fun e => e.1 == p) with
  | none => simp [hfind] at h
  | some e =>
    have hmem := List.mem_of_find?_eq_some hfind
    have hp := List.find?_some hfind
    simp only [beq_iff_eq] at hp
    simp only [paths_of, List.mem_toFinset, List.mem_map]
    exact ⟨e, hmem, hp⟩

/-- C3 on the two files that name each other: from fuel 4 on the call on
`a.glsl` returns one and the same outcome. -/
theorem load_shader_terminates_witness :
    ∃ o, ∀ fuel, 4 ≤ fuel →
      load_shader .linux fs_cycle kw_inc fuel "a.glsl".toList [] = some o :=
  let ⟨o, ho⟩ := (load_shader_terminates .linux fs_cycle kw_inc (paths_of table_cycle)
    (fs_of_paths table_cycle) "a.glsl".toList []).1
  ⟨o, fun fuel hfuel => ho fuel (by
    have hcount : unvisited (paths_of table_cycle) [] = 2 := by decide
    omega)⟩

/-! ## The visited set across calls -/

/-- When the root can be opened, the outermost call leaves `already_included` empty. -/
theorem load_shader_clears_when_open (os : HostOS) (fs : FS) (kw : Str) (fuel : Nat)
    (root content : Str) (o : Outcome) (hroot : fs root = some content)
    (h : load_shader os fs kw fuel root [] = some o) : o.already_included = [] := by
  cases fuel with
  | zero => simp [load_shader] at h
  | succ fuel =>
    rw [load_shader_open os fs kw fuel root content [] hroot] at h
    simp only [if_true, Option.map_eq_some'] at h
    obtain ⟨out, _, rfl⟩ := h
    rfl

/-- C7 fails on a root that cannot be opened: the early return of `load_shader`
skips the final `clear()`, and the root path stays in `already_included`. -/
theorem load_shader_early_return_keeps_visited :
    fs_none "missing.glsl".toList = none ∧
    (load_shader .linux fs_none kw_inc 1 "missing.glsl".toList []).map Outcome.already_included =
      some ["missing.glsl".toList] := by
  decide

/-- C6 fails after a call on a root that cannot be opened: `p.glsl` stays in
`already_included`, so the next call on `q.glsl` skips its directive for `p.glsl`
and returns the empty string, where a fresh loader returns one newline. -/
theorem load_shader_then_leaks :
    (load_shader .linux fs_q kw_inc 2 "p.glsl".toList []).map Outcome.already_included =
      some ["p.glsl".toList] ∧
    (load_shader_then .linux fs_q kw_inc 2 "p.glsl".toList "q.glsl".toList).map
      Outcome.ret_data = some [] ∧
    (load_shader .linux fs_q kw_inc 2 "q.glsl".toList []).map Outcome.ret_data =
      some ['\n'] := by
  decide

/-- After a call on a root that can be opened, the next call on the same loader
is the call of a fresh loader. -/
theorem load_shader_then_fresh (os : HostOS) (fs : FS) (kw : Str) (fuel : Nat)
    (p q content : Str) (first : Outcome) (hp : fs p = some content)
    (hfirst : load_shader os fs kw fuel p [] = some first) :
    load_shader_then os fs kw fuel p q = load_shader os fs kw fuel q [] := by
  unfold load_shader_then
  rw [hfirst, Option.some_bind,
    load_shader_clears_when_open os fs kw fuel p content first hp hfirst]

/-! ## Directive lines without a quoted argument -/

theorem find_char_aux_absent (c : Char) : ∀ (s : Str) (i : Nat), c ∉ s →
    find_char_aux c s i = npos := by
  intro s
  induction s with
  | nil => intro i _; rfl
  | cons x xs ih =>
    intro i h
    simp only [List.mem_cons, not_or] at h
    simp only [find_char_aux, (Ne.symm h.1), if_false]
    exact ih (i + 1) h.2

theorem find_char_aux_first (c : Char) (b : Str) : ∀ (a : Str) (i : Nat), c ∉ a →
    find_char_aux c (a ++ c :: b) i = i + a.length := by
  intro a
  induction a with
  | nil => intro i _; simp [find_char_aux]
  | cons x xs ih =>
    intro i h
    simp only [List.mem_cons, not_or] at h
    rw [List.cons_append, find_char_aux, if_neg (Ne.symm h.1), ih (i + 1) h.2,
      List.length_cons]
    omega

/-- Without a first symbol, or without a second one after it, the extraction
gives the empty string and writes its message. -/
theorem extract_first_between_missing (input : Str) (c : Char) (hlen : input.length < npos)
    (hmissing : c ∉ input ∨ ∃ a b, input = a ++ c :: b ∧ c ∉ a ∧ c ∉ b) :
    extract_first_between input c c = ([], [msg_symbol_not_found c c]) := by
  rcases hmissing with h | ⟨a, b, hab, ha, hb⟩
  · have hstart : find_char input c 0 = npos := by
      simpa [find_char] using find_char_aux_absent c input 0 h
    simp [extract_first_between, hstart]
  · have hstart : find_char input c 0 = a.length := by
      simpa [find_char, hab] using find_char_aux_first c b a 0 ha
    have hbound : a.length + 1 < 2 ^ 64 := by
      have : a.length < input.length := by simp [hab]
      unfold npos at hlen
      omega
    have hend : find_char input c ((a.length + 1) % 2 ^ 64) = npos := by
      rw [Nat.mod_eq_of_lt hbound]
      unfold find_char
      have hdrop : List.drop (a.length + 1) input = b := by
        rw [hab]
        simp
      rw [hdrop]
      exact find_char_aux_absent c b _ hb
    simp only [extract_first_between, hstart, hend]
    simp

theorem normalize_separators_nil (os : HostOS) : normalize_separators os [] = [] := by
  cases os <;> rfl

/-- C8 as stated fails on `a.glsl`, whose first line `#inc b.glsl` has the keyword
and no quote: the line contributes a newline, and the call returns
`\nfoo();\n`, not `foo();\n`. -/
theorem load_shader_malformed_counterexample :
    fs_malformed "a.glsl".toList = some "#inc b.glsl\nfoo();\n".toList ∧
    getlines "#inc b.glsl\nfoo();\n".toList = ["#inc b.glsl".toList, "foo();".toList] ∧
    kw_inc <+: "#inc b.glsl".toList ∧
    '"' ∉ List.drop kw_inc.length "#inc b.glsl".toList ∧
    (load_shader .linux fs_malformed kw_inc 2 "a.glsl".toList []).map Outcome.ret_data =
      some "\nfoo();\n".toList ∧
    (load_shader .linux fs_malformed kw_inc 2 "a.glsl".toList []).map Outcome.ret_data ≠
      some (unlines ["foo();".toList]) := by
  decide

/-- C8 (amended): a line that starts with the keyword and whose remainder lacks
an opening or a closing double quote is a directive with the empty argument. Its
extraction writes a diagnostic; its target is the directory part of the current
path. The line contributes nothing when that target is the current path or is
already visited; otherwise it contributes the result of the recursive call on
that target plus a newline, which is one newline when the target cannot be
opened. In every case the loop goes on with the lines after it. -/
theorem process_lines_malformed_directive (os : HostOS) (kw : Str)
    (recurse : Str → List Str → Option Outcome) (fp d : Str) (rest : List Str) (acc : Outcome)
    (hd : kw <+: d) (hlen : d.length < npos)
    (hmal : '"' ∉ d.drop kw.length ∨
      ∃ a b, d.drop kw.length = a ++ '"' :: b ∧ '"' ∉ a ∧ '"' ∉ b) :
    include_argument kw d = ([], [msg_symbol_not_found '"' '"']) ∧
    full_include_path os kw fp d = extract_path fp ∧
    process_lines os kw recurse fp (d :: rest) acc =
      (if fp = extract_path fp then
        process_lines os kw recurse fp rest
          { acc with cout := acc.cout ++ [msg_symbol_not_found '"' '"'] ++
              [msg_self_include fp] }
      else if extract_path fp ∈ acc.already_included then
        process_lines os kw recurse fp rest
          { acc with cout := acc.cout ++ [msg_symbol_not_found '"' '"'] }
      else
        (recurse (extract_path fp) (acc.already_included ++ [extract_path fp])).bind
          (fun sub => process_lines os kw recurse fp rest
            { ret_data := acc.ret_data ++ (sub.ret_data ++ ['\n'])
              already_included := sub.already_included
              cout := acc.cout ++ [msg_symbol_not_found '"' '"'] ++ sub.cout })) ∧
    (∀ (fs : FS) (fuel : Nat), fs (extract_path fp) = none → fp ≠ extract_path fp →
      extract_path fp ∉ acc.already_included →
      process_lines os kw (load_shader os fs kw (fuel + 1)) fp (d :: rest) acc =
        process_lines os kw (load_shader os fs kw (fuel + 1)) fp rest
          { ret_data := acc.ret_data ++ ['\n']
            already_included := acc.already_included ++ [extract_path fp]
            cout := acc.cout ++ [msg_symbol_not_found '"' '"'] ++
              [msg_open_failed (extract_path fp)] }) := by
  have harg : include_argument kw d = ([], [msg_symbol_not_found '"' '"']) := by
    unfold include_argument
    apply extract_first_between_missing _ _ _ hmal
    have : (List.drop kw.length d).length ≤ d.length := by simp
    omega
  have hfull : full_include_path os kw fp d = extract_path fp := by
    simp [full_include_path, harg, normalize_separators_nil]
  refine ⟨harg, hfull, ?_, ?_⟩
  · simp only [process_lines, (is_directive_iff kw d).mpr hd, if_true, hfull, harg]
    split
    · rfl
    · split
      · rfl
      · cases recurse (extract_path fp) (acc.already_included ++ [extract_path fp]) <;> rfl
  · intro fs fuel hclosed hself hnew
    have hsub := load_shader_closed os fs kw fuel (extract_path fp)
      (acc.already_included ++ [extract_path fp]) hclosed
    simp only [List.append_eq_nil, List.cons_ne_nil, and_false, if_false] at hsub
    rw [process_lines_new_step os kw _ fp d rest acc _ hd (by rw [hfull]; exact hself.symm)
      (by rw [hfull]; exact hnew) (by rw [hfull]; exact hsub)]
    simp [harg]

/-- The amended C8 on the line `#inc b.glsl` of `a.glsl`: the target is the empty
path, which cannot be opened, and the line contributes one newline. -/
theorem process_lines_malformed_directive_witness :
    process_lines .linux kw_inc (load_shader .linux fs_malformed kw_inc 1) "a.glsl".toList
        ["#inc b.glsl".toList, "foo();".toList]
        { ret_data := [], already_included := ["a.glsl".toList], cout := [] } =
      process_lines .linux kw_inc (load_shader .linux fs_malformed kw_inc 1) "a.glsl".toList
        ["foo();".toList]
        { ret_data := ['\n']
          already_included := ["a.glsl".toList, []]
          cout := [msg_symbol_not_found '"' '"', msg_open_failed []] } :=
  (process_lines_malformed_directive .linux kw_inc (load_shader .linux fs_malformed kw_inc 1)
    "a.glsl".toList "#inc b.glsl".toList ["foo();".toList]
    { ret_data := [], already_included := ["a.glsl".toList], cout := [] }
    (by decide) (by decide) (Or.inl (by decide))).2.2.2 fs_malformed 0
    (by decide) (by decide) (by decide)

/-! ## Self-inclusion -/

/-- While `F` is in `already_included` the line loop calls the recursion only on
paths other than `F`: two recursive calls that agree there give the same loop. -/
theorem process_lines_agree (os : HostOS) (kw F : Str)
    (r r' : Str → List Str → Option Outcome) (fp : Str)
    (hgrow : ∀ p V o, r p V = some o → V ⊆ o.already_included)
    (hrr : ∀ q W, F ∈ W → q ≠ F → r q W = r' q W) :
    ∀ (ls : List Str) (acc : Outcome), F ∈ acc.already_included →
      process_lines os kw r fp ls acc = process_lines os kw r' fp ls acc := by
  intro ls
  induction ls with
  | nil => intro acc _; rfl
  | cons l ls ih =>
    intro acc hF
    simp only [process_lines]
    split
    · split
      · exact ih _ hF
      · split
        · exact ih _ hF
        · rename_i hnew
          have hne : full_include_path os kw fp l ≠ F := fun h => hnew (h ▸ hF)
          rw [← hrr _ _ (List.mem_append_left _ hF) hne]
          cases hsub : r (full_include_path os kw fp l)
              (acc.already_included ++ [full_include_path os kw fp l]) with
          | none => rfl
          | some sub =>
            exact ih _ (hgrow _ _ _ hsub (List.mem_append_left _ hF))
    · exact ih _ hF

/-- A file that is in `already_included` is not read again: changing it does not
change a call on another path. -/
theorem load_shader_agree (os : HostOS) (fs fs' : FS) (kw F : Str)
    (hother : ∀ p, p ≠ F → fs' p = fs p) :
    ∀ (fuel : Nat) (q : Str) (W : List Str), F ∈ W → q ≠ F →
      load_shader os fs kw fuel q W = load_shader os fs' kw fuel q W := by
  intro fuel
  induction fuel with
  | zero => intro q W _ _; rfl
  | succ fuel ih =>
    intro q W hF hq
    have hW : W ≠ [] := List.ne_nil_of_mem hF
    cases hfile : fs q with
    | none =>
      rw [load_shader_closed os fs kw fuel q W hfile,
        load_shader_closed os fs' kw fuel q W (by rw [hother q hq]; exact hfile)]
    | some content =>
      rw [load_shader_open os fs kw fuel q content W hfile,
        load_shader_open os fs' kw fuel q content W (by rw [hother q hq]; exact hfile),
        process_lines_agree os kw F _ _ q (load_shader_grows os fs kw fuel) ih _ _
          (by simpa [hW] using hF)]

/-- At the root `F`, deleting the lines that name `F` itself changes neither the
returned string nor `already_included`. -/
theorem process_lines_drop_self (os : HostOS) (kw F : Str)
    (r r' : Str → List Str → Option Outcome)
    (hgrow : ∀ p V o, r p V = some o → V ⊆ o.already_included)
    (hrr : ∀ q W, F ∈ W → q ≠ F → r q W = r' q W) :
    ∀ (ls : List Str) (acc acc' : Outcome), acc.ret_data = acc'.ret_data →
      acc.already_included = acc'.already_included → F ∈ acc.already_included →
      (process_lines os kw r F ls acc).map (fun o => (o.ret_data, o.already_included)) =
        (process_lines os kw r' F (ls.filter (fun l => !is_self_include os kw F l)) acc').map
          (fun o => (o.ret_data, o.already_included)) := by
  intro ls
  induction ls with
  | nil => intro acc acc' h1 h2 _; simp [process_lines, h1, h2]
  | cons l ls ih =>
    intro acc acc' h1 h2 hF
    by_cases hd : is_directive kw l = true
    · by_cases hself : F = full_include_path os kw F l
      · rw [List.filter_cons_of_neg (by simp [is_self_include, hd, ← hself])]
        simp only [process_lines, hd, if_true, ← hself]
        exact ih _ _ h1 h2 hF
      · rw [List.filter_cons_of_pos (by simp [is_self_include, hd, hself])]
        simp only [process_lines, hd, if_true, hself, if_false, ← h2]
        by_cases hdup : full_include_path os kw F l ∈ acc.already_included
        · simp only [hdup, if_true]
          exact ih _ _ h1 rfl hF
        · simp only [hdup, if_false]
          rw [← hrr _ _ (List.mem_append_left _ hF) (Ne.symm hself)]
          cases hsub : r (full_include_path os kw F l)
              (acc.already_included ++ [full_include_path os kw F l]) with
          | none => rfl
          | some sub =>
            exact ih _ _ (by simp [h1]) rfl (hgrow _ _ _ hsub (List.mem_append_left _ hF))
    · have hd' : is_directive kw l = false := by simpa using hd
      rw [List.filter_cons_of_pos (by simp [is_self_include, hd'])]
      simp only [process_lines, hd', Bool.false_eq_true, if_false]
      exact ih _ _ (by simp [h1]) h2 hF

/-- C9: resolving a readable root `F` (empty visited set) returns the same
string as on the file system in which the lines of `F` whose computed target is
`F` itself are deleted and every other file is unchanged. Such a line writes one
warning after the messages of its extraction, makes no recursive call, and
leaves the returned string and `already_included` as they are. -/
theorem load_shader_self_include (os : HostOS) (fs fs' : FS) (kw : Str) (fuel : Nat)
    (F content content' : Str)
    (hF : fs F = some content) (hF' : fs' F = some content')
    (hdeleted : getlines content' =
      (getlines content).filter (fun l => !is_self_include os kw F l))
    (hother : ∀ p, p ≠ F → fs' p = fs p) :
    (load_shader os fs kw fuel F []).map Outcome.ret_data =
      (load_shader os fs' kw fuel F []).map Outcome.ret_data ∧
    (∀ (recurse : Str → List Str → Option Outcome) (line : Str) (rest : List Str)
      (acc : Outcome), is_self_include os kw F line = true →
      process_lines os kw recurse F (line :: rest) acc =
        process_lines os kw recurse F rest
          { acc with cout := acc.cout ++ (include_argument kw line).2 ++
              [msg_self_include F] }) := by
  constructor
  · cases fuel with
    | zero => rfl
    | succ fuel =>
      rw [load_shader_open os fs kw fuel F content [] hF,
        load_shader_open os fs' kw fuel F content' [] hF', hdeleted]
      have h := process_lines_drop_self os kw F (load_shader os fs kw fuel)
        (load_shader os fs' kw fuel) (load_shader_grows os fs kw fuel)
        (load_shader_agree os fs fs' kw F hother fuel) (getlines content)
        { ret_data := [], already_included := [F], cout := [] }
        { ret_data := [], already_included := [F], cout := [] } rfl rfl (by simp)
      simp only [if_true, Option.map_map]
      have h2 := congrArg (Option.map Prod.fst) h
      simpa [Option.map_map, Function.comp_def] using h2
  · intro recurse line rest acc hself
    simp only [is_self_include, Bool.and_eq_true, decide_eq_true_eq] at hself
    simp [process_lines, hself.1, ← hself.2]

theorem fs_self_removed_other (p : Str) (hp : p ≠ "s.glsl".toList) :
    fs_self_removed p = fs_self p := by
  have hb : ("s.glsl".toList == p) = false := beq_false_of_ne (Ne.symm hp)
  simp only [fs_self, fs_self_removed, fs_of, List.find?, hb]

/-- C9 on `s.glsl`, whose second line names `s.glsl` itself: the call returns
what it returns on the file without that line. -/
theorem load_shader_self_include_witness :
    (load_shader .linux fs_self kw_inc 1 "s.glsl".toList []).map Outcome.ret_data =
      (load_shader .linux fs_self_removed kw_inc 1 "s.glsl".toList []).map Outcome.ret_data :=
  (load_shader_self_include .linux fs_self fs_self_removed kw_inc 1 "s.glsl".toList
    "a\n#inc \"s.glsl\"\nb\n".toList "a\nb\n".toList (by decide) (by decide) (by decide)
    fs_self_removed_other).1

/-! ## The helper `extract_path` -/

theorem find_last_of_aux_free (set : Str) : ∀ (s : Str) (i best : Nat),
    (∀ c ∈ s, c ∉ set) → find_last_of_aux set s i best = best := by
  intro s
  induction s with
  | nil => intro i best _; rfl
  | cons x xs ih =>
    intro i best h
    rw [find_last_of_aux, if_neg (h x (List.mem_cons_self _ _))]
    exact ih (i + 1) best (fun c hc => h c (List.mem_cons_of_mem _ hc))

theorem find_last_of_aux_last (set : Str) (c : Char) (name : Str) (hc : c ∈ set)
    (hname : ∀ x ∈ name, x ∉ set) : ∀ (a : Str) (i best : Nat),
    find_last_of_aux set (a ++ c :: name) i best = i + a.length := by
  intro a
  induction a with
  | nil =>
    intro i best
    rw [List.nil_append, find_last_of_aux, if_pos hc, find_last_of_aux_free set name _ _ hname]
    rfl
  | cons x xs ih =>
    intro i best
    rw [List.cons_append, find_last_of_aux, ih, List.length_cons]
    omega

/-- A string either holds no character of `set`, or splits at the last one. -/
theorem exists_last_of (set : Str) : ∀ (p : Str),
    (∀ c ∈ p, c ∉ set) ∨
      ∃ a c name, p = a ++ c :: name ∧ c ∈ set ∧ ∀ x ∈ name, x ∉ set := by
  intro p
  induction p with
  | nil => exact Or.inl (fun c hc => absurd hc (List.not_mem_nil c))
  | cons x xs ih =>
    rcases ih with hfree | ⟨a, c, name, hsplit, hc, hname⟩
    · by_cases hx : x ∈ set
      · exact Or.inr ⟨[], x, xs, rfl, hx, hfree⟩
      · refine Or.inl (fun c hc => ?_)
        rcases List.mem_cons.mp hc with h | h
        · exact h ▸ hx
        · exact hfree c h
    · exact Or.inr ⟨x :: a, c, name, by rw [hsplit]; rfl, hc, hname⟩

/-- Without a separator the directory part is empty. -/
theorem extract_path_free (p : Str) (hfree : ∀ c ∈ p, c ∉ ['\\', '/']) :
    extract_path p = [] := by
  simp [extract_path, find_last_of, find_last_of_aux_free _ p 0 npos hfree]

/-- The directory part ends at the last separator. -/
theorem extract_path_split (a name : Str) (c : Char) (hlen : (a ++ c :: name).length < npos)
    (hc : c ∈ ['\\', '/']) (hname : ∀ x ∈ name, x ∉ ['\\', '/']) :
    extract_path (a ++ c :: name) = a ++ [c] := by
  have hpos : find_last_of (a ++ c :: name) ['\\', '/'] = a.length := by
    simpa [find_last_of] using find_last_of_aux_last _ c name hc hname a 0 npos
  have hne : a.length ≠ npos := by
    simp only [List.length_append, List.length_cons] at hlen
    omega
  simp only [extract_path, hpos, hne, ne_eq, not_false_eq_true, if_true, substr, List.drop_zero]
  rw [List.take_append_eq_append_take]
  simp

theorem not_mem_seps (x : Char) : x ∉ ['\\', '/'] ↔ x ≠ '/' ∧ x ≠ '\\' := by
  simp only [List.mem_cons, List.mem_singleton, List.not_mem_nil, or_false, not_or]
  exact and_comm

/-- The path is its directory part followed by a name without separators. -/
theorem extract_path_append_name (p : Str) (hlen : p.length < npos) :
    ∃ name, p = extract_path p ++ name ∧ ∀ x ∈ name, x ∉ ['\\', '/'] := by
  rcases exists_last_of ['\\', '/'] p with hfree | ⟨a, c, name, hsplit, hc, hname⟩
  · exact ⟨p, by rw [extract_path_free p hfree]; rfl, hfree⟩
  · subst hsplit
    exact ⟨name, by rw [extract_path_split a name c hlen hc hname]; simp, hname⟩

/-- C19: for a path shorter than `npos`, `extract_path` returns the empty string
when the path holds neither `/` nor `\\`, and otherwise the part up to and
including the last of them. The path is that part followed by a name without
separators, the part is empty or ends with a separator, and taking the part
again changes nothing. -/
theorem extract_path_spec (p : Str) (hlen : p.length < npos) :
    ((∀ x ∈ p, x ≠ '/' ∧ x ≠ '\\') → extract_path p = []) ∧
    (∀ (a name : Str) (c : Char), p = a ++ c :: name → (c = '/' ∨ c = '\\') →
      (∀ x ∈ name, x ≠ '/' ∧ x ≠ '\\') → extract_path p = a ++ [c]) ∧
    (∃ name, p = extract_path p ++ name ∧ '/' ∉ name ∧ '\\' ∉ name) ∧
    (extract_path p = [] ∨ (extract_path p).getLast? = some '/' ∨
      (extract_path p).getLast? = some '\\') ∧
    extract_path (extract_path p) = extract_path p := by
  refine ⟨?_, ?_, ?_, ?_, ?_⟩
  · intro hfree
    exact extract_path_free p (fun x hx => (not_mem_seps x).mpr (hfree x hx))
  · intro a name c hsplit hc hname
    subst hsplit
    exact extract_path_split a name c hlen (by rcases hc with h | h <;> simp [h])
      (fun x hx => (not_mem_seps x).mpr (hname x hx))
  · obtain ⟨name, hp, hname⟩ := extract_path_append_name p hlen
    exact ⟨name, hp, fun h => ((not_mem_seps _).mp (hname _ h)).1 rfl,
      fun h => ((not_mem_seps _).mp (hname _ h)).2 rfl⟩
  · rcases exists_last_of ['\\', '/'] p with hfree | ⟨a, c, name, hsplit, hc, hname⟩
    · exact Or.inl (extract_path_free p hfree)
    · subst hsplit
      rw [extract_path_split a name c hlen hc hname]
      simp only [List.mem_cons, List.mem_singleton, List.not_mem_nil, or_false] at hc
      rcases hc with h | h
      · exact Or.inr (Or.inr (by simp [h]))
      · exact Or.inr (Or.inl (by simp [h]))
  · rcases exists_last_of ['\\', '/'] p with hfree | ⟨a, c, name, hsplit, hc, hname⟩
    · rw [extract_path_free p hfree]
      rfl
    · subst hsplit
      rw [extract_path_split a name c hlen hc hname]
      have hlen2 : (a ++ c :: []).length < npos := by
        simp only [List.length_append, List.length_cons, List.length_nil] at hlen ⊢
        omega
      exact extract_path_split a [] c hlen2 hc (fun x hx => absurd hx (List.not_mem_nil x))

/-- C19 on the path `shaders/lib/light.glsl`: the directory part is `shaders/lib/`. -/
theorem extract_path_spec_witness :
    extract_path "shaders/lib/light.glsl".toList = "shaders/lib/".toList :=
  (extract_path_spec "shaders/lib/light.glsl".toList (by decide)).2.1
    "shaders/lib".toList "light.glsl".toList '/' (by decide) (by decide) (by decide)

/-! ## The helper `extract_first_between` -/

/-- A string either lacks `c` or splits at its first `c`. -/
theorem exists_first (c : Char) : ∀ (l : Str), c ∉ l ∨ ∃ a b, l = a ++ c :: b ∧ c ∉ a := by
  intro l
  induction l with
  | nil => exact Or.inl (List.not_mem_nil c)
  | cons x xs ih =>
    by_cases hx : x = c
    · exact Or.inr ⟨[], xs, by rw [hx]; rfl, List.not_mem_nil c⟩
    · rcases ih with h | ⟨a, b, hsplit, ha⟩
      · refine Or.inl (fun hc => ?_)
        rcases List.mem_cons.mp hc with h' | h'
        · exact hx h'.symm
        · exact h h'
      · refine Or.inr ⟨x :: a, b, by rw [hsplit]; rfl, fun hc => ?_⟩
        rcases List.mem_cons.mp hc with h' | h'
        · exact hx h'.symm
        · exact ha h'

/-- Both symbols found: the extraction is the text between them, without a message. -/
theorem extract_first_between_found (a b c : Str) (s e : Char)
    (hlen : (a ++ s :: b ++ e :: c).length < npos) (ha : s ∉ a) (hb : e ∉ b) :
    extract_first_between (a ++ s :: b ++ e :: c) s e = (b, []) := by
  have hlen' : a.length + b.length + c.length + 2 < npos := by
    simp only [List.length_append, List.length_cons] at hlen
    omega
  have hstart : find_char (a ++ s :: b ++ e :: c) s 0 = a.length := by
    have h := find_char_aux_first s (b ++ e :: c) a 0 ha
    simpa [find_char] using h
  have hbound : a.length + 1 < 2 ^ 64 := by
    unfold npos at hlen'
    omega
  have hdrop : List.drop (a.length + 1) (a ++ s :: b ++ e :: c) = b ++ e :: c := by
    simp
  have hend : find_char (a ++ s :: b ++ e :: c) e ((a.length + 1) % 2 ^ 64) =
      a.length + 1 + b.length := by
    rw [Nat.mod_eq_of_lt hbound]
    unfold find_char
    rw [hdrop]
    exact find_char_aux_first e c b _ hb
  have h1 : a.length ≠ npos := by omega
  have h2 : a.length + 1 + b.length ≠ npos := by omega
  have h3 : a.length + 1 + b.length - a.length - 1 = b.length := by omega
  simp only [extract_first_between, hstart, hend, h1, h2, h3, ne_eq, not_false_eq_true,
    and_self, if_true, substr, hdrop]
  simp

/-- The first symbol missing, or the second one missing after it: the extraction
is empty and writes its message. -/
theorem extract_first_between_lacking (input : Str) (s e : Char) (hlen : input.length < npos)
    (hmissing : s ∉ input ∨ ∃ a rest, input = a ++ s :: rest ∧ s ∉ a ∧ e ∉ rest) :
    extract_first_between input s e = ([], [msg_symbol_not_found s e]) := by
  rcases hmissing with h | ⟨a, rest, hsplit, ha, hrest⟩
  · have hstart : find_char input s 0 = npos := by
      simpa [find_char] using find_char_aux_absent s input 0 h
    simp [extract_first_between, hstart]
  · have hstart : find_char input s 0 = a.length := by
      simpa [find_char, hsplit] using find_char_aux_first s rest a 0 ha
    have hbound : a.length + 1 < 2 ^ 64 := by
      have : a.length < input.length := by simp [hsplit]
      unfold npos at hlen
      omega
    have hend : find_char input e ((a.length + 1) % 2 ^ 64) = npos := by
      rw [Nat.mod_eq_of_lt hbound]
      unfold find_char
      have hdrop : List.drop (a.length + 1) input = rest := by
        rw [hsplit]
        simp
      rw [hdrop]
      exact find_char_aux_absent e rest _ hrest
    simp only [extract_first_between, hstart, hend]
    simp

/-- C18: on an input shorter than `npos`, `extract_first_between` returns the
text strictly between the first `start_symbol` and the first `end_symbol` after
it, without a message; it returns the empty string together with its message
exactly when the start symbol does not occur or no end symbol occurs after the
first start symbol. With both symbols equal to `q` and the input
`a ++ [q] ++ b ++ [q] ++ c`, `a` and `b` free of `q`, the result is `b`. -/
theorem extract_first_between_spec (input : Str) (s e : Char) (hlen : input.length < npos) :
    (∀ a b c : Str, input = a ++ s :: b ++ e :: c → s ∉ a → e ∉ b →
      extract_first_between input s e = (b, [])) ∧
    (extract_first_between input s e = ([], [msg_symbol_not_found s e]) ↔
      (s ∉ input ∨ ∃ a rest, input = a ++ s :: rest ∧ s ∉ a ∧ e ∉ rest)) ∧
    ((extract_first_between input s e).2 = [] ↔
      ∃ a b c, input = a ++ s :: b ++ e :: c ∧ s ∉ a ∧ e ∉ b) := by
  have hfound : ∀ a b c : Str, input = a ++ s :: b ++ e :: c → s ∉ a → e ∉ b →
      extract_first_between input s e = (b, []) := by
    intro a b c hsplit ha hb
    subst hsplit
    exact extract_first_between_found a b c s e hlen ha hb
  have hcases : (s ∉ input ∨ ∃ a rest, input = a ++ s :: rest ∧ s ∉ a ∧ e ∉ rest) ∨
      ∃ a b c, input = a ++ s :: b ++ e :: c ∧ s ∉ a ∧ e ∉ b := by
    rcases exists_first s input with h | ⟨a, rest, hsplit, ha⟩
    · exact Or.inl (Or.inl h)
    · rcases exists_first e rest with h | ⟨b, c, hrest, hb⟩
      · exact Or.inl (Or.inr ⟨a, rest, hsplit, ha, h⟩)
      · exact Or.inr ⟨a, b, c, by rw [hsplit, hrest]; simp, ha, hb⟩
  refine ⟨hfound, ⟨?_, extract_first_between_lacking input s e hlen⟩, ?_, ?_⟩
  · intro hres
    rcases hcases with h | ⟨a, b, c, hsplit, ha, hb⟩
    · exact h
    · rw [hfound a b c hsplit ha hb] at hres
      simp at hres
  · intro hres
    rcases hcases with h | h
    · rw [extract_first_between_lacking input s e hlen h] at hres
      simp at hres
    · exact h
  · rintro ⟨a, b, c, hsplit, ha, hb⟩
    rw [hfound a b c hsplit ha hb]

/-- C18 on the example of the source: the text between the first two underscores
of `extract_between_underscores` is `between`. -/
theorem extract_first_between_spec_witness :
    extract_first_between "extract_between_underscores".toList '_' '_' =
      ("between".toList, []) :=
  (extract_first_between_spec "extract_between_underscores".toList '_' '_' (by decide)).1
    "extract".toList "between".toList "underscores".toList (by decide) (by decide) (by decide)

/-! ## The argument of a directive line -/

/-- The argument of a directive line `kw ++ m ++ "p" ++ t`, with `m` and `p`
free of double quotes, is `p`, extracted without a message. -/
theorem include_argument_quoted (kw m p t : Str) (hm : '"' ∉ m) (hp : '"' ∉ p)
    (hlen : (kw ++ m ++ '"' :: p ++ '"' :: t).length < npos) :
    include_argument kw (kw ++ m ++ '"' :: p ++ '"' :: t) = (p, []) := by
  have hdrop : List.drop kw.length (kw ++ m ++ '"' :: p ++ '"' :: t) =
      m ++ '"' :: p ++ '"' :: t := by
    simp [List.append_assoc]
  unfold include_argument
  rw [hdrop]
  apply extract_first_between_found m p t '"' '"' _ hm hp
  simp only [List.length_append, List.length_cons] at hlen ⊢
  omega

/-- The step of the line loop depends on a directive line only through its argument. -/
theorem process_lines_same_argument (os : HostOS) (kw : Str)
    (recurse : Str → List Str → Option Outcome) (fp d d' : Str) (rest : List Str)
    (acc : Outcome) (hd : kw <+: d) (hd' : kw <+: d')
    (harg : include_argument kw d = include_argument kw d') :
    process_lines os kw recurse fp (d :: rest) acc =
      process_lines os kw recurse fp (d' :: rest) acc := by
  simp only [process_lines, (is_directive_iff kw d).mpr hd, (is_directive_iff kw d').mpr hd',
    if_true, full_include_path, harg]

/-- C14: for `m` and `p` free of double quotes and lines shorter than `npos`, the
directive line `kw ++ m ++ "p" ++ t` has the same computed target as the line
`kw ++ "p"`, namely the directory part of the current path followed by the
normalised `p`, and the line loop gives the same returned string, the same
`already_included` and the same messages on both. -/
theorem first_quoted_argument_only (os : HostOS) (kw : Str)
    (recurse : Str → List Str → Option Outcome) (fp : Str) (rest : List Str) (acc : Outcome)
    (m p t : Str) (hm : '"' ∉ m) (hp : '"' ∉ p)
    (hlen : (kw ++ m ++ '"' :: p ++ '"' :: t).length < npos) :
    full_include_path os kw fp (kw ++ m ++ '"' :: p ++ '"' :: t) =
      extract_path fp ++ normalize_separators os p ∧
    full_include_path os kw fp (kw ++ '"' :: p ++ ['"']) =
      extract_path fp ++ normalize_separators os p ∧
    process_lines os kw recurse fp ((kw ++ m ++ '"' :: p ++ '"' :: t) :: rest) acc =
      process_lines os kw recurse fp ((kw ++ '"' :: p ++ ['"']) :: rest) acc := by
  have h1 := include_argument_quoted kw m p t hm hp hlen
  have h2 : include_argument kw (kw ++ '"' :: p ++ ['"']) = (p, []) := by
    have h := include_argument_quoted kw [] p [] (List.not_mem_nil _) hp (by
      simp only [List.length_append, List.length_cons, List.length_nil] at hlen ⊢
      omega)
    simpa using h
  refine ⟨by rw [full_include_path, h1], by rw [full_include_path, h2], ?_⟩
  apply process_lines_same_argument
  · exact ⟨m ++ '"' :: p ++ '"' :: t, by simp [List.append_assoc]⟩
  · exact ⟨'"' :: p ++ ['"'], by simp [List.append_assoc]⟩
  · rw [h1, h2]

/-- C14 on a line of `a.glsl` with two blanks before the quoted `b.glsl` and a
comment after it: its step is the step of the bare directive for `b.glsl`. -/
theorem first_quoted_argument_only_witness :
    process_lines .linux kw_inc (load_shader .linux fs_ab kw_inc 1) "a.glsl".toList
        ["#inc  \"b.glsl\" // lights".toList]
        { ret_data := [], already_included := ["a.glsl".toList], cout := [] } =
      process_lines .linux kw_inc (load_shader .linux fs_ab kw_inc 1) "a.glsl".toList
        ["#inc\"b.glsl\"".toList]
        { ret_data := [], already_included := ["a.glsl".toList], cout := [] } :=
  (first_quoted_argument_only .linux kw_inc (load_shader .linux fs_ab kw_inc 1) "a.glsl".toList
    [] { ret_data := [], already_included := ["a.glsl".toList], cout := [] }
    "  ".toList "b.glsl".toList " // lights".toList (by decide) (by decide) (by decide)).2.2

/-! ## Recognising a directive line -/

/-- C13: the line loop takes the directive branch exactly when the keyword is a
prefix of the line. A line that does not start with the keyword, in particular
one in which the keyword is first found at a position greater than 0, is
appended verbatim followed by a newline, whatever the recursive call is: no
include is made. -/
theorem directive_is_prefix_match (os : HostOS) (kw : Str)
    (recurse : Str → List Str → Option Outcome) (fp l : Str) (rest : List Str)
    (acc : Outcome) :
    (is_directive kw l = true ↔ kw <+: l) ∧
    (0 < find l kw → ¬ kw <+: l) ∧
    (¬ kw <+: l →
      process_lines os kw recurse fp (l :: rest) acc =
        process_lines os kw recurse fp rest
          { acc with ret_data := acc.ret_data ++ (l ++ ['\n']) }) ∧
    (kw <+: l →
      process_lines os kw recurse fp (l :: rest) acc =
        (if fp = full_include_path os kw fp l then
          process_lines os kw recurse fp rest
            { acc with cout := acc.cout ++ (include_argument kw l).2 ++ [msg_self_include fp] }
        else if full_include_path os kw fp l ∈ acc.already_included then
          process_lines os kw recurse fp rest
            { acc with cout := acc.cout ++ (include_argument kw l).2 }
        else
          (recurse (full_include_path os kw fp l)
            (acc.already_included ++ [full_include_path os kw fp l])).bind
            (fun sub => process_lines os kw recurse fp rest
              { ret_data := acc.ret_data ++ (sub.ret_data ++ ['\n'])
                already_included := sub.already_included
                cout := acc.cout ++ (include_argument kw l).2 ++ sub.cout }))) := by
  refine ⟨is_directive_iff kw l, ?_, process_lines_plain_step os kw recurse fp l rest acc, ?_⟩
  · intro hpos hprefix
    have h := (is_directive_iff kw l).mpr hprefix
    simp only [is_directive, beq_iff_eq] at h
    omega
  · intro hprefix
    simp only [process_lines, (is_directive_iff kw l).mpr hprefix, if_true]
    split
    · rfl
    · split
      · rfl
      · cases recurse (full_include_path os kw fp l)
          (acc.already_included ++ [full_include_path os kw fp l]) <;> rfl

/-- C13 on a line with the keyword after one blank: the keyword is found at
position 1, and the line is appended verbatim. -/
theorem directive_is_prefix_match_witness :
    process_lines .linux kw_inc (load_shader .linux fs_ab kw_inc 1) "a.glsl".toList
        [" #inc \"b.glsl\"".toList]
        { ret_data := [], already_included := ["a.glsl".toList], cout := [] } =
      some { ret_data := " #inc \"b.glsl\"\n".toList
             already_included := ["a.glsl".toList], cout := [] } :=
  (directive_is_prefix_match .linux kw_inc (load_shader .linux fs_ab kw_inc 1) "a.glsl".toList
    " #inc \"b.glsl\"".toList []
    { ret_data := [], already_included := ["a.glsl".toList], cout := [] }).2.2.1
    ((directive_is_prefix_match .linux kw_inc (load_shader .linux fs_ab kw_inc 1)
      "a.glsl".toList " #inc \"b.glsl\"".toList []
      { ret_data := [], already_included := ["a.glsl".toList], cout := [] }).2.1 (by decide))

/-! ## An included file that cannot be opened -/

/-- C11: a directive line whose target differs from the current path, is not yet
visited and cannot be opened contributes exactly one newline; the target is
recorded, the file-open message is written after the messages of the
extraction, and the loop goes on with the lines after it from that state. For a
file whose lines before the directive are free of directives this gives the
whole call. -/
theorem load_shader_missing_include (os : HostOS) (fs : FS) (kw : Str) (fuel : Nat)
    (fp d : Str) (pre post : List Str)
    (hd : kw <+: d) (hself : full_include_path os kw fp d ≠ fp)
    (hclosed : fs (full_include_path os kw fp d) = none) :
    (∀ acc : Outcome, full_include_path os kw fp d ∉ acc.already_included →
      process_lines os kw (load_shader os fs kw (fuel + 1)) fp (d :: post) acc =
        process_lines os kw (load_shader os fs kw (fuel + 1)) fp post
          { ret_data := acc.ret_data ++ ['\n']
            already_included := acc.already_included ++ [full_include_path os kw fp d]
            cout := acc.cout ++ (include_argument kw d).2 ++
              [msg_open_failed (full_include_path os kw fp d)] }) ∧
    (∀ (content : Str) (V : List Str), fs fp = some content →
      getlines content = pre ++ [d] ++ post → (∀ l ∈ pre, ¬ kw <+: l) →
      full_include_path os kw fp d ∉ V →
      load_shader os fs kw (fuel + 2) fp V =
        (process_lines os kw (load_shader os fs kw (fuel + 1)) fp post
          { ret_data := unlines pre ++ ['\n']
            already_included :=
              (if V = [] then [fp] else V) ++ [full_include_path os kw fp d]
            cout := (include_argument kw d).2 ++
              [msg_open_failed (full_include_path os kw fp d)] }).map
          (fun out =>
            { out with already_included := if V = [] then [] else out.already_included })) := by
  have hstep : ∀ acc : Outcome, full_include_path os kw fp d ∉ acc.already_included →
      process_lines os kw (load_shader os fs kw (fuel + 1)) fp (d :: post) acc =
        process_lines os kw (load_shader os fs kw (fuel + 1)) fp post
          { ret_data := acc.ret_data ++ ['\n']
            already_included := acc.already_included ++ [full_include_path os kw fp d]
            cout := acc.cout ++ (include_argument kw d).2 ++
              [msg_open_failed (full_include_path os kw fp d)] } := by
    intro acc hnew
    have hsub := load_shader_closed os fs kw fuel (full_include_path os kw fp d)
      (acc.already_included ++ [full_include_path os kw fp d]) hclosed
    simp only [List.append_eq_nil, List.cons_ne_nil, and_false, if_false] at hsub
    rw [process_lines_new_step os kw _ fp d post acc _ hd hself hnew hsub]
    simp
  refine ⟨hstep, ?_⟩
  intro content V hfile hlines hpre hnew
  rw [load_shader_open os fs kw (fuel + 1) fp content V hfile, hlines, List.append_assoc,
    process_lines_pre os kw _ fp pre _ _ hpre, List.singleton_append, hstep]
  · simp
  · by_cases hV : V = []
    · simpa [hV] using hself
    · simpa [hV] using hnew

/-- C11 on `m.glsl`, whose second line names a file that does not exist: the
call returns `one`, an empty line and `two`, and writes the file-open message. -/
theorem load_shader_missing_include_witness :
    load_shader .linux fs_missing_include kw_inc 2 "m.glsl".toList [] =
      some { ret_data := "one\n\ntwo\n".toList, already_included := []
             cout := [msg_open_failed "gone.glsl".toList] } :=
  (load_shader_missing_include .linux fs_missing_include kw_inc 0 "m.glsl".toList
    "#inc \"gone.glsl\"".toList ["one".toList] ["two".toList]
    (by decide) (by decide) (by decide)).2 "one\n#inc \"gone.glsl\"\ntwo\n".toList []
    (by decide) (by decide) (by decide) (by decide)

/-! ## Paths relative to the including file -/

theorem normalize_separators_sub (os : HostOS) :
    normalize_separators os "sub/b.glsl".toList =
        "sub".toList ++ '/' :: "b.glsl".toList ∧
      normalize_separators os "sub/".toList = "sub".toList ++ ['/'] ∨
    normalize_separators os "sub/b.glsl".toList =
        "sub".toList ++ '\\' :: "b.glsl".toList ∧
      normalize_separators os "sub/".toList = "sub".toList ++ ['\\'] := by
  cases os
  · exact Or.inr ⟨by decide, by decide⟩
  · exact Or.inl ⟨by decide, by decide⟩
  · exact Or.inl ⟨by decide, by decide⟩

/-- C12: the target of a directive line of the file `P` with argument `r` is
`extract_path P ++ normalize r`; when it is neither `P` nor visited, it is this
path that is appended to `already_included` and passed to the recursive call.
Hence for a root `R` naming `sub/b.glsl`, whose file names `c.glsl`, the nested
target is the directory part of `R`, then the normalised `sub/`, then `c.glsl`
(with `sub/` itself unless the build is the `_WIN32` one), and never
`extract_path R ++ c.glsl`. -/
theorem include_relative_to_including_file (os : HostOS) (kw R d1 d2 : Str)
    (hlen : (extract_path R ++ normalize_separators os "sub/b.glsl".toList).length < npos)
    (harg1 : (include_argument kw d1).1 = "sub/b.glsl".toList)
    (harg2 : (include_argument kw d2).1 = "c.glsl".toList) :
    (∀ (P d r : Str), (include_argument kw d).1 = r →
      full_include_path os kw P d = extract_path P ++ normalize_separators os r) ∧
    (∀ (recurse : Str → List Str → Option Outcome) (P d r : Str) (rest : List Str)
      (acc : Outcome), kw <+: d → (include_argument kw d).1 = r →
      extract_path P ++ normalize_separators os r ≠ P →
      extract_path P ++ normalize_separators os r ∉ acc.already_included →
      process_lines os kw recurse P (d :: rest) acc =
        (recurse (extract_path P ++ normalize_separators os r)
          (acc.already_included ++ [extract_path P ++ normalize_separators os r])).bind
          (fun sub => process_lines os kw recurse P rest
            { ret_data := acc.ret_data ++ (sub.ret_data ++ ['\n'])
              already_included := sub.already_included
              cout := acc.cout ++ (include_argument kw d).2 ++ sub.cout })) ∧
    full_include_path os kw (full_include_path os kw R d1) d2 =
      extract_path R ++ normalize_separators os "sub/".toList ++ "c.glsl".toList ∧
    full_include_path os kw (full_include_path os kw R d1) d2 ≠
      extract_path R ++ "c.glsl".toList ∧
    (os ≠ HostOS.win32 →
      full_include_path os kw (full_include_path os kw R d1) d2 =
        extract_path R ++ "sub/".toList ++ "c.glsl".toList) := by
  have hfull : ∀ (P d r : Str), (include_argument kw d).1 = r →
      full_include_path os kw P d = extract_path P ++ normalize_separators os r := by
    intro P d r hr
    rw [full_include_path, hr]
  have hc : normalize_separators os "c.glsl".toList = "c.glsl".toList := by
    cases os <;> decide
  have hnested : full_include_path os kw (full_include_path os kw R d1) d2 =
      extract_path R ++ normalize_separators os "sub/".toList ++ "c.glsl".toList := by
    rw [hfull _ d2 _ harg2, hfull R d1 _ harg1, hc]
    congr 1
    rcases normalize_separators_sub os with ⟨h1, h2⟩ | ⟨h1, h2⟩
    · rw [h1] at hlen ⊢
      rw [h2, ← List.append_assoc, ← List.append_assoc]
      rw [← List.append_assoc] at hlen
      exact extract_path_split _ _ '/' hlen (by decide) (by decide)
    · rw [h1] at hlen ⊢
      rw [h2, ← List.append_assoc, ← List.append_assoc]
      rw [← List.append_assoc] at hlen
      exact extract_path_split _ _ '\\' hlen (by decide) (by decide)
  refine ⟨hfull, ?_, hnested, ?_, ?_⟩
  · intro recurse P d r rest acc hd hr hself hnew
    rw [← hfull P d r hr] at hself hnew ⊢
    simp only [process_lines, (is_directive_iff kw d).mpr hd, if_true, Ne.symm hself, if_false,
      hnew]
    cases recurse (full_include_path os kw P d)
      (acc.already_included ++ [full_include_path os kw P d]) <;> rfl
  · rw [hnested, List.append_assoc]
    intro h
    have h2 := congrArg List.length (List.append_cancel_left h)
    rcases normalize_separators_sub os with ⟨_, h3⟩ | ⟨_, h3⟩ <;>
      · rw [h3] at h2
        simp at h2
  · intro hos
    rw [hnested]
    cases os
    · exact absurd rfl hos
    · rfl
    · rfl

/-- C12 on `shaders/main.glsl`: the nested directive names `shaders/sub/c.glsl`,
and the call returns the line `inner` of that file, not the line `outer` of
`shaders/c.glsl`. -/
theorem include_relative_to_including_file_witness :
    full_include_path .linux kw_inc
        (full_include_path .linux kw_inc "shaders/main.glsl".toList "#inc \"sub/b.glsl\"".toList)
        "#inc \"c.glsl\"".toList = "shaders/sub/c.glsl".toList ∧
    (load_shader .linux fs_nested kw_inc 3 "shaders/main.glsl".toList []).map Outcome.ret_data =
      some "inner\n\n\n".toList :=
  ⟨(include_relative_to_including_file .linux kw_inc "shaders/main.glsl".toList
    "#inc \"sub/b.glsl\"".toList "#inc \"c.glsl\"".toList
    (by decide) (by decide) (by decide)).2.2.1, by decide⟩

/-! ## Separator normalisation -/

/-- Two different strings with the same image under `replace _ a b`: the image holds `b`. -/
theorem replace_eq_mem (a b : Char) : ∀ (r1 r2 : Str), replace r1 a b = replace r2 a b →
    r1 ≠ r2 → b ∈ replace r1 a b := by
  intro r1
  induction r1 with
  | nil =>
    intro r2 h hne
    cases r2 with
    | nil => exact absurd rfl hne
    | cons y ys => simp [replace] at h
  | cons x xs ih =>
    intro r2 h hne
    cases r2 with
    | nil => simp [replace] at h
    | cons y ys =>
      simp only [replace, List.map_cons, List.cons.injEq] at h
      obtain ⟨hhead, htail⟩ := h
      simp only [replace, List.map_cons, List.mem_cons]
      by_cases hxy : x = y
      · right
        exact ih ys htail (fun hxs => hne (by rw [hxy, hxs]))
      · left
        by_cases hxa : x = a
        · simp [hxa]
        · by_cases hya : y = a
          · simp only [hxa, hya, if_false, if_true] at hhead
            simp [hxa, hhead]
          · simp only [hxa, hya, if_false] at hhead
            exact absurd hhead hxy

theorem replace_not_mem (a b : Char) (hab : a ≠ b) (r : Str) : a ∉ replace r a b := by
  simp only [replace, List.mem_map, not_exists, not_and]
  intro c _ hc
  by_cases hca : c = a
  · simp only [hca, if_true] at hc
    exact hab hc.symm
  · simp only [hca, if_false] at hc

/-- After a directive line whose target is not the current path, the target is
in `already_included`, also after further lines. -/
theorem process_lines_records (os : HostOS) (kw : Str)
    (recurse : Str → List Str → Option Outcome) (fp d : Str) (mid : List Str)
    (acc acc' : Outcome) (hgrow : ∀ p V o, recurse p V = some o → V ⊆ o.already_included)
    (hd : kw <+: d) (hself : full_include_path os kw fp d ≠ fp)
    (h : process_lines os kw recurse fp (d :: mid) acc = some acc') :
    full_include_path os kw fp d ∈ acc'.already_included := by
  simp only [process_lines, (is_directive_iff kw d).mpr hd, if_true, Ne.symm hself,
    if_false] at h
  split at h
  · rename_i hdup
    exact process_lines_grows os kw recurse fp hgrow _ _ _ h hdup
  · split at h
    · exact absurd h (by simp)
    · rename_i sub hsub
      have h1 := hgrow _ _ _ hsub
      have h2 := process_lines_grows os kw recurse fp hgrow _ _ _ h
      exact h2 (h1 (by simp))

/-- C16: on the Linux build the argument is normalised by replacing every
backslash with `/` and nothing else, so the result holds no backslash. Two
directive lines of one file whose arguments differ but have the same
normalisation have the same target; it is not the current path, it is in
`already_included` once the first line is done, and the second line is skipped
by the duplicate guard. The directory part is a prefix of the current path as
it stands: a backslash in it is kept. -/
theorem linux_separator_normalisation (fs : FS) (kw : Str) (fuel : Nat) (fp d1 d2 : Str)
    (mid rest : List Str) (acc : Outcome)
    (hlen : fp.length < npos) (hd1 : kw <+: d1) (hd2 : kw <+: d2)
    (hdiff : (include_argument kw d1).1 ≠ (include_argument kw d2).1)
    (hsame : normalize_separators .linux (include_argument kw d1).1 =
      normalize_separators .linux (include_argument kw d2).1) :
    (∀ r : Str, normalize_separators .linux r = r.map (fun c => if c = '\\' then '/' else c) ∧
      '\\' ∉ normalize_separators .linux r) ∧
    full_include_path .linux kw fp d1 = full_include_path .linux kw fp d2 ∧
    full_include_path .linux kw fp d2 ≠ fp ∧
    (∀ acc', process_lines .linux kw (load_shader .linux fs kw fuel) fp (d1 :: mid) acc =
        some acc' → full_include_path .linux kw fp d2 ∈ acc'.already_included) ∧
    process_lines .linux kw (load_shader .linux fs kw fuel) fp (d1 :: mid ++ d2 :: rest) acc =
      (process_lines .linux kw (load_shader .linux fs kw fuel) fp (d1 :: mid) acc).bind
        (fun acc' => process_lines .linux kw (load_shader .linux fs kw fuel) fp rest
          { acc' with cout := acc'.cout ++ (include_argument kw d2).2 }) ∧
    extract_path fp <+: fp ∧
    full_include_path .linux kw_inc "dir\\a.glsl".toList "#inc \"sub\\x.glsl\"".toList =
      "dir\\sub/x.glsl".toList := by
  have htarget : full_include_path .linux kw fp d1 = full_include_path .linux kw fp d2 := by
    rw [full_include_path, full_include_path, hsame]
  have hmem : '/' ∈ normalize_separators .linux (include_argument kw d2).1 := by
    rw [← hsame]
    exact replace_eq_mem '\\' '/' _ _ hsame hdiff
  obtain ⟨name, hname, hfree⟩ := extract_path_append_name fp hlen
  have hself : full_include_path .linux kw fp d2 ≠ fp := by
    intro h
    rw [full_include_path] at h
    have h2 : extract_path fp ++ normalize_separators .linux (include_argument kw d2).1 =
        extract_path fp ++ name := by rw [h]; exact hname
    have h3 := List.append_cancel_left h2
    rw [h3] at hmem
    exact hfree _ hmem (by simp)
  have hrec : ∀ acc', process_lines .linux kw (load_shader .linux fs kw fuel) fp (d1 :: mid)
      acc = some acc' → full_include_path .linux kw fp d2 ∈ acc'.already_included := by
    intro acc' h
    rw [← htarget]
    exact process_lines_records .linux kw _ fp d1 mid acc acc' (load_shader_grows .linux fs kw fuel)
      hd1 (by rw [htarget]; exact hself) h
  refine ⟨?_, htarget, hself, hrec, ?_, ⟨name, hname.symm⟩, by decide⟩
  · intro r
    exact ⟨rfl, replace_not_mem '\\' '/' (by decide) r⟩
  · have hsplit : d1 :: mid ++ d2 :: rest = (d1 :: mid) ++ (d2 :: rest) := by simp
    rw [hsplit, process_lines_append]
    cases hfirst : process_lines .linux kw (load_shader .linux fs kw fuel) fp (d1 :: mid) acc with
    | none => rfl
    | some acc' =>
      simp only [Option.some_bind]
      exact process_lines_dup_step .linux kw _ fp d2 rest acc' hd2 hself (hrec acc' hfirst)

/-- C16 on `a.glsl`, which names `sub\x.glsl` and then `sub/x.glsl`: both lines
have the target `sub/x.glsl`, whose line `xx` is returned once. -/
theorem linux_separator_normalisation_witness :
    full_include_path .linux kw_inc "a.glsl".toList "#inc \"sub\\x.glsl\"".toList =
      full_include_path .linux kw_inc "a.glsl".toList "#inc \"sub/x.glsl\"".toList ∧
    (load_shader .linux fs_separators kw_inc 2 "a.glsl".toList []).map Outcome.ret_data =
      some "xx\n\n".toList :=
  ⟨(linux_separator_normalisation fs_separators kw_inc 1 "a.glsl".toList
    "#inc \"sub\\x.glsl\"".toList "#inc \"sub/x.glsl\"".toList [] []
    { ret_data := [], already_included := ["a.glsl".toList], cout := [] }
    (by decide) (by decide) (by decide) (by decide) (by decide)).2.1, by decide⟩

/-! ## The shape of the returned string -/

/-- Lines that each end with an appended newline: the text is empty or ends with a newline. -/
theorem unlines_ends_with_newline : ∀ (pieces : List Str),
    unlines pieces = [] ∨ (unlines pieces).getLast? = some '\n' := by
  intro pieces
  induction pieces with
  | nil => exact Or.inl rfl
  | cons l ls ih =>
    right
    rcases ih with h | h
    · simp [unlines, h]
    · have hne : unlines ls ≠ [] := by
        intro h0
        rw [h0] at h
        simp at h
      rw [unlines, List.getLast?_append_of_ne_nil _ hne]
      exact h

/-- The line loop appends pieces, each followed by a newline: a line of the file
that is not a directive, or the string returned by a recursive call. -/
theorem process_lines_pieces (os : HostOS) (kw : Str)
    (recurse : Str → List Str → Option Outcome) (fp : Str) :
    ∀ (ls : List Str) (acc o : Outcome), process_lines os kw recurse fp ls acc = some o →
      ∃ pieces, o.ret_data = acc.ret_data ++ unlines pieces ∧
        ∀ x ∈ pieces, (x ∈ ls ∧ ¬ kw <+: x) ∨
          ∃ p W sub, recurse p W = some sub ∧ sub.ret_data = x := by
  intro ls
  induction ls with
  | nil =>
    intro acc o h
    simp only [process_lines, Option.some.injEq] at h
    subst h
    exact ⟨[], by simp [unlines], fun x hx => absurd hx (List.not_mem_nil x)⟩
  | cons l ls ih =>
    intro acc o h
    have hlift : ∀ (pieces : List Str) (x : Str),
        ((x ∈ ls ∧ ¬ kw <+: x) ∨ ∃ p W sub, recurse p W = some sub ∧ sub.ret_data = x) →
        ((x ∈ l :: ls ∧ ¬ kw <+: x) ∨ ∃ p W sub, recurse p W = some sub ∧ sub.ret_data = x) := by
      intro _ x hx
      rcases hx with ⟨h1, h2⟩ | h3
      · exact Or.inl ⟨List.mem_cons_of_mem _ h1, h2⟩
      · exact Or.inr h3
    by_cases hd : kw <+: l
    · simp only [process_lines, (is_directive_iff kw l).mpr hd, if_true] at h
      split at h
      · obtain ⟨pieces, hret, hp⟩ := ih _ _ h
        exact ⟨pieces, hret, fun x hx => hlift pieces x (hp x hx)⟩
      · split at h
        · obtain ⟨pieces, hret, hp⟩ := ih _ _ h
          exact ⟨pieces, hret, fun x hx => hlift pieces x (hp x hx)⟩
        · split at h
          · exact absurd h (by simp)
          · rename_i sub hsub
            obtain ⟨pieces, hret, hp⟩ := ih _ _ h
            refine ⟨sub.ret_data :: pieces, by simp [hret, unlines], fun x hx => ?_⟩
            rcases List.mem_cons.mp hx with hx | hx
            · exact Or.inr ⟨_, _, sub, hsub, hx.symm⟩
            · exact hlift pieces x (hp x hx)
    · rw [process_lines_plain_step os kw recurse fp l ls acc hd] at h
      obtain ⟨pieces, hret, hp⟩ := ih _ _ h
      refine ⟨l :: pieces, by simp [hret, unlines], fun x hx => ?_⟩
      rcases List.mem_cons.mp hx with hx | hx
      · exact Or.inl ⟨by rw [hx]; exact List.mem_cons_self _ _, by rw [hx]; exact hd⟩
      · exact hlift pieces x (hp x hx)

/-- C15: the string returned by any call of `load_shader`, outermost or
recursive, is a concatenation of pieces each followed by one newline, where a
piece is a line of the file that is not a directive or the string returned by
a recursive call; hence it is empty or ends with a newline. -/
theorem load_shader_newline_terminated (os : HostOS) (fs : FS) (kw : Str) (fuel : Nat)
    (fp : Str) (V : List Str) (o : Outcome)
    (h : load_shader os fs kw fuel fp V = some o) :
    (∃ pieces, o.ret_data = unlines pieces ∧
      ∀ x ∈ pieces, (∃ content, fs fp = some content ∧ x ∈ getlines content ∧ ¬ kw <+: x) ∨
        ∃ fuel' p W sub, load_shader os fs kw fuel' p W = some sub ∧ sub.ret_data = x) ∧
    (o.ret_data = [] ∨ o.ret_data.getLast? = some '\n') := by
  have hpieces : ∃ pieces, o.ret_data = unlines pieces ∧
      ∀ x ∈ pieces, (∃ content, fs fp = some content ∧ x ∈ getlines content ∧ ¬ kw <+: x) ∨
        ∃ fuel' p W sub, load_shader os fs kw fuel' p W = some sub ∧ sub.ret_data = x := by
    cases fuel with
    | zero => simp [load_shader] at h
    | succ fuel =>
      cases hfile : fs fp with
      | none =>
        rw [load_shader_closed os fs kw fuel fp V hfile, Option.some.injEq] at h
        subst h
        exact ⟨[], rfl, fun x hx => absurd hx (List.not_mem_nil x)⟩
      | some content =>
        rw [load_shader_open os fs kw fuel fp content V hfile] at h
        simp only [Option.map_eq_some'] at h
        obtain ⟨out, hout, rfl⟩ := h
        obtain ⟨pieces, hret, hp⟩ := process_lines_pieces os kw _ fp _ _ _ hout
        refine ⟨pieces, by simpa using hret, fun x hx => ?_⟩
        rcases hp x hx with ⟨h1, h2⟩ | ⟨p, W, sub, hsub, hx'⟩
        · exact Or.inl ⟨content, rfl, h1, h2⟩
        · exact Or.inr ⟨fuel, p, W, sub, hsub, hx'⟩
  refine ⟨hpieces, ?_⟩
  obtain ⟨pieces, hret, _⟩ := hpieces
  rw [hret]
  exact unlines_ends_with_newline pieces

/-- C15 on the two files that name each other: the returned string ends with a newline. -/
theorem load_shader_newline_terminated_witness :
    ("x\nu\nv\n\ny\n".toList = [] ∨ "x\nu\nv\n\ny\n".toList.getLast? = some '\n') :=
  (load_shader_newline_terminated .linux fs_cycle kw_inc 2 "a.glsl".toList []
    { ret_data := "x\nu\nv\n\ny\n".toList, already_included := [], cout := [] }
    (by decide)).2

/-! ## No directive in the returned string -/

theorem getlines_aux_no_newline : ∀ (s cur : Str), '\n' ∉ cur →
    ∀ l ∈ getlines_aux cur s, '\n' ∉ l := by
  intro s
  induction s with
  | nil =>
    intro cur hcur l hl
    by_cases hc : cur = []
    · simp [getlines_aux, hc] at hl
    · simp only [getlines_aux, hc, if_false, List.mem_singleton] at hl
      rw [hl]
      simpa using hcur
  | cons c cs ih =>
    intro cur hcur l hl
    by_cases hnl : c = '\n'
    · simp only [getlines_aux, hnl, if_true, List.mem_cons] at hl
      rcases hl with hl | hl
      · rw [hl]
        simpa using hcur
      · exact ih [] (List.not_mem_nil _) l hl
    · simp only [getlines_aux, hnl, if_false] at hl
      refine ih (c :: cur) ?_ l hl
      intro hmem
      rcases List.mem_cons.mp hmem with h | h
      · exact hnl h.symm
      · exact hcur h

/-- No line read by `getline` holds a newline. -/
theorem getlines_no_newline (content : Str) : ∀ l ∈ getlines content, '\n' ∉ l :=
  getlines_aux_no_newline content [] (List.not_mem_nil _)

theorem getlines_aux_line (rest : Str) : ∀ (l cur : Str), '\n' ∉ l →
    getlines_aux cur (l ++ '\n' :: rest) = (cur.reverse ++ l) :: getlines_aux [] rest := by
  intro l
  induction l with
  | nil => intro cur _; simp [getlines_aux]
  | cons c cs ih =>
    intro cur h
    simp only [List.mem_cons, not_or] at h
    rw [List.cons_append, getlines_aux, if_neg (Ne.symm h.1), ih (c :: cur) h.2]
    simp

/-- Reading back lines that were written with a newline each gives the lines. -/
theorem getlines_unlines : ∀ (pieces : List Str), (∀ l ∈ pieces, '\n' ∉ l) →
    getlines (unlines pieces) = pieces := by
  intro pieces
  induction pieces with
  | nil => intro _; rfl
  | cons l ls ih =>
    intro h
    have hl := h l (List.mem_cons_self _ _)
    have hls := ih (fun x hx => h x (List.mem_cons_of_mem _ hx))
    unfold getlines at hls ⊢
    rw [unlines, List.append_assoc, List.singleton_append, getlines_aux_line _ l [] hl, hls]
    simp

/-- The line loop keeps the returned string flat when the recursive call
returns flat strings and the lines come from a file. -/
theorem process_lines_flat (os : HostOS) (fs : FS) (kw : Str) (hkw : kw ≠ [])
    (recurse : Str → List Str → Option Outcome) (fp content : Str)
    (hfile : fs fp = some content)
    (hrec : ∀ p W sub, recurse p W = some sub → flat_text fs kw sub.ret_data) :
    ∀ (ls : List Str) (acc o : Outcome), (∀ l ∈ ls, l ∈ getlines content) →
      flat_text fs kw acc.ret_data → process_lines os kw recurse fp ls acc = some o →
      flat_text fs kw o.ret_data := by
  intro ls
  induction ls with
  | nil =>
    intro acc o _ hacc h
    simp only [process_lines, Option.some.injEq] at h
    subst h
    exact hacc
  | cons l ls ih =>
    intro acc o hls hacc h
    have hls' : ∀ x ∈ ls, x ∈ getlines content := fun x hx => hls x (List.mem_cons_of_mem _ hx)
    by_cases hd : kw <+: l
    · simp only [process_lines, (is_directive_iff kw l).mpr hd, if_true] at h
      split at h
      · exact ih _ _ hls' (by exact hacc) h
      · split at h
        · exact ih _ _ hls' (by exact hacc) h
        · split at h
          · exact absurd h (by simp)
          · rename_i sub hsub
            refine ih _ _ hls' ?_ h
            obtain ⟨ps, hps, hpg⟩ := hacc
            obtain ⟨qs, hqs, hqg⟩ := hrec _ _ _ hsub
            refine ⟨ps ++ qs ++ [[]], ?_, ?_⟩
            · show acc.ret_data ++ (sub.ret_data ++ ['\n']) = _
              rw [hps, hqs, unlines_append, unlines_append]
              simp [unlines]
            · intro x hx
              simp only [List.mem_append, List.mem_singleton] at hx
              rcases hx with (hx | hx) | hx
              · exact hpg x hx
              · exact hqg x hx
              · rw [hx]
                refine ⟨List.not_mem_nil _, ?_, Or.inl rfl⟩
                intro hpre
                exact hkw (List.prefix_nil.mp hpre)
    · rw [process_lines_plain_step os kw recurse fp l ls acc hd] at h
      refine ih _ _ hls' ?_ h
      obtain ⟨ps, hps, hpg⟩ := hacc
      refine ⟨ps ++ [l], ?_, ?_⟩
      · show acc.ret_data ++ (l ++ ['\n']) = _
        rw [hps, unlines_append]
        simp [unlines]
      · intro x hx
        simp only [List.mem_append, List.mem_singleton] at hx
        rcases hx with hx | hx
        · exact hpg x hx
        · rw [hx]
          have hmem := hls l (List.mem_cons_self _ _)
          exact ⟨getlines_no_newline content l hmem, hd, Or.inr ⟨fp, content, hfile, hmem⟩⟩

/-- Every call of `load_shader` with a non-empty keyword returns a flat string. -/
theorem load_shader_flat (os : HostOS) (fs : FS) (kw : Str) (hkw : kw ≠ []) :
    ∀ (fuel : Nat) (p : Str) (V : List Str) (o : Outcome),
      load_shader os fs kw fuel p V = some o → flat_text fs kw o.ret_data := by
  intro fuel
  induction fuel with
  | zero => intro p V o h; simp [load_shader] at h
  | succ fuel ih =>
    intro p V o h
    cases hfile : fs p with
    | none =>
      rw [load_shader_closed os fs kw fuel p V hfile, Option.some.injEq] at h
      subst h
      exact ⟨[], rfl, fun x hx => absurd hx (List.not_mem_nil x)⟩
    | some content =>
      rw [load_shader_open os fs kw fuel p content V hfile] at h
      simp only [Option.map_eq_some'] at h
      obtain ⟨out, hout, rfl⟩ := h
      have hflat := process_lines_flat os fs kw hkw _ p content hfile ih _ _ _ (fun _ hl => hl)
        ⟨[], rfl, fun x hx => absurd hx (List.not_mem_nil x)⟩ hout
      exact hflat

/-- C20: with a non-empty keyword, no line of the string returned by
`load_shader` has the keyword as a prefix; every line of it is empty or is a
line of some file that is not a directive; and a file holding that string is
resolved (empty visited set) to the string itself. -/
theorem load_shader_no_directive_survives (os : HostOS) (fs : FS) (kw : Str) (fuel : Nat)
    (root : Str) (V : List Str) (o : Outcome) (hkw : kw ≠ [])
    (h : load_shader os fs kw fuel root V = some o) :
    (∀ l ∈ getlines o.ret_data, ¬ kw <+: l) ∧
    (∀ l ∈ getlines o.ret_data, l = [] ∨
      (¬ kw <+: l ∧ ∃ p content, fs p = some content ∧ l ∈ getlines content)) ∧
    (∀ (fs' : FS) (q : Str) (fuel' : Nat), fs' q = some o.ret_data →
      load_shader os fs' kw (fuel' + 1) q [] =
        some { ret_data := o.ret_data, already_included := [], cout := [] }) := by
  obtain ⟨pieces, hret, hflat⟩ := load_shader_flat os fs kw hkw fuel root V o h
  have hlines : getlines o.ret_data = pieces := by
    rw [hret]
    exact getlines_unlines pieces (fun l hl => (hflat l hl).1)
  have hplain : ∀ l ∈ getlines o.ret_data, ¬ kw <+: l := by
    intro l hl
    rw [hlines] at hl
    exact (hflat l hl).2.1
  refine ⟨hplain, ?_, ?_⟩
  · intro l hl
    rw [hlines] at hl
    rcases (hflat l hl).2.2 with h0 | hsrc
    · exact Or.inl h0
    · exact Or.inr ⟨(hflat l hl).2.1, hsrc⟩
  · intro fs' q fuel' hq
    rw [load_shader_plain os fs' kw fuel' q o.ret_data [] hq hplain, hlines, ← hret]
    simp

/-- C20 on the scenario of `a.glsl` and `b.glsl`: the file `flat.glsl`, which
holds the returned string, is resolved to that string. -/
theorem load_shader_no_directive_survives_witness :
    load_shader .linux fs_flattened kw_inc 1 "flat.glsl".toList [] =
      some { ret_data := "bar();\n\nfoo();\n".toList, already_included := [], cout := [] } :=
  (load_shader_no_directive_survives .linux fs_ab kw_inc 2 "a.glsl".toList []
    { ret_data := "bar();\n\nfoo();\n".toList, already_included := [], cout := [] }
    (by decide) (by decide)).2.2 fs_flattened "flat.glsl".toList 0 (by decide)

/-! ## The visited set holds no path twice -/

/-- The line loop keeps `already_included` free of duplicates when the recursive call does. -/
theorem process_lines_nodup (os : HostOS) (kw : Str)
    (recurse : Str → List Str → Option Outcome) (fp : Str)
    (hrec : ∀ q W sub, W.Nodup → recurse q W = some sub → sub.already_included.Nodup) :
    ∀ (ls : List Str) (acc o : Outcome), acc.already_included.Nodup →
      process_lines os kw recurse fp ls acc = some o → o.already_included.Nodup := by
  intro ls
  induction ls with
  | nil =>
    intro acc o hacc h
    simp only [process_lines, Option.some.injEq] at h
    subst h
    exact hacc
  | cons l ls ih =>
    intro acc o hacc h
    simp only [process_lines] at h
    split at h
    · split at h
      · exact ih _ _ (by exact hacc) h
      · split at h
        · exact ih _ _ (by exact hacc) h
        · rename_i hnew
          split at h
          · exact absurd h (by simp)
          · rename_i sub hsub
            have hpush : (acc.already_included ++ [full_include_path os kw fp l]).Nodup := by
              rw [List.nodup_append]
              refine ⟨hacc, List.nodup_singleton _, ?_⟩
              intro x hx hx'
              rw [List.mem_singleton] at hx'
              exact hnew (hx' ▸ hx)
            have hsubnd := hrec _ _ _ hpush hsub
            exact ih _ _ (by exact hsubnd) h
    · exact ih _ _ (by exact hacc) h

/-- A call of `load_shader` on a duplicate-free `already_included` leaves it duplicate-free. -/
theorem load_shader_nodup (os : HostOS) (fs : FS) (kw : Str) :
    ∀ (fuel : Nat) (p : Str) (V : List Str) (o : Outcome), V.Nodup →
      load_shader os fs kw fuel p V = some o → o.already_included.Nodup := by
  intro fuel
  induction fuel with
  | zero => intro p V o _ h; simp [load_shader] at h
  | succ fuel ih =>
    intro p V o hV h
    have hstart : (if V = [] then [p] else V).Nodup := by
      by_cases h0 : V = []
      · simp [h0]
      · simpa [h0] using hV
    cases hfile : fs p with
    | none =>
      rw [load_shader_closed os fs kw fuel p V hfile, Option.some.injEq] at h
      subst h
      exact hstart
    | some content =>
      rw [load_shader_open os fs kw fuel p content V hfile] at h
      simp only [Option.map_eq_some'] at h
      obtain ⟨out, hout, rfl⟩ := h
      have hnd := process_lines_nodup os kw _ p ih _ _ _ (by exact hstart) hout
      by_cases h0 : V = []
      · simp [h0]
      · simpa [h0] using hnd

theorem load_shader_calls_closed (os : HostOS) (fs : FS) (kw : Str) (fuel : Nat) (fp : Str)
    (V : List Str) (hfile : fs fp = none) : load_shader_calls os fs kw (fuel + 1) fp V = [] := by
  simp [load_shader_calls, hfile]

theorem load_shader_calls_open (os : HostOS) (fs : FS) (kw : Str) (fuel : Nat)
    (fp content : Str) (V : List Str) (hfile : fs fp = some content) :
    load_shader_calls os fs kw (fuel + 1) fp V =
      process_lines_calls os kw (load_shader os fs kw fuel) (load_shader_calls os fs kw fuel) fp
        (getlines content)
        { ret_data := [], already_included := if V = [] then [fp] else V, cout := [] } := by
  rw [load_shader_calls]
  simp only [hfile]
  cases V with
  | nil => rfl
  | cons x xs =>
    have hlen : ((x :: xs).length == 0) = false := by simp
    have hne : (x :: xs) ≠ [] := List.cons_ne_nil x xs
    simp only [hlen, hne, Bool.false_eq_true, if_false]

/-- What the line loop appends to `already_included` is the record of its calls. -/
theorem process_lines_calls_spec (os : HostOS) (kw : Str)
    (recurse : Str → List Str → Option Outcome) (calls : Str → List Str → List Str) (fp : Str)
    (hrel : ∀ q W sub, W ≠ [] → recurse q W = some sub →
      sub.already_included = W ++ calls q W) :
    ∀ (ls : List Str) (acc o : Outcome), process_lines os kw recurse fp ls acc = some o →
      o.already_included =
        acc.already_included ++ process_lines_calls os kw recurse calls fp ls acc := by
  intro ls
  induction ls with
  | nil =>
    intro acc o h
    simp only [process_lines, Option.some.injEq] at h
    subst h
    simp [process_lines_calls]
  | cons l ls ih =>
    intro acc o h
    by_cases hd : is_directive kw l = true
    · by_cases hself : fp = full_include_path os kw fp l
      · simp only [process_lines, process_lines_calls, hd, if_true, ← hself] at h ⊢
        have h2 := ih _ _ h
        exact h2
      · by_cases hdup : full_include_path os kw fp l ∈ acc.already_included
        · simp only [process_lines, process_lines_calls, hd, if_true, hself, if_false,
            hdup] at h ⊢
          have h2 := ih _ _ h
          exact h2
        · simp only [process_lines, process_lines_calls, hd, if_true, hself, if_false,
            hdup] at h ⊢
          cases hsub : recurse (full_include_path os kw fp l)
              (acc.already_included ++ [full_include_path os kw fp l]) with
          | none => rw [hsub] at h; exact absurd h (by simp)
          | some sub =>
            rw [hsub] at h
            have h1 := hrel _ _ _ (by simp) hsub
            have h2 := ih _ _ h
            rw [h2]
            show sub.already_included ++ _ = _
            nth_rewrite 1 [h1]
            simp
    · have hd' : is_directive kw l = false := by simpa using hd
      simp only [process_lines, process_lines_calls, hd', Bool.false_eq_true, if_false] at h ⊢
      have h2 := ih _ _ h
      exact h2

/-- A recursive call appends to `already_included` exactly the record of the
calls made inside it. -/
theorem load_shader_calls_spec (os : HostOS) (fs : FS) (kw : Str) :
    ∀ (fuel : Nat) (p : Str) (W : List Str) (o : Outcome), W ≠ [] →
      load_shader os fs kw fuel p W = some o →
      o.already_included = W ++ load_shader_calls os fs kw fuel p W := by
  intro fuel
  induction fuel with
  | zero => intro p W o _ h; simp [load_shader] at h
  | succ fuel ih =>
    intro p W o hW h
    cases hfile : fs p with
    | none =>
      rw [load_shader_closed os fs kw fuel p W hfile, Option.some.injEq] at h
      subst h
      simp [load_shader_calls_closed os fs kw fuel p W hfile, hW]
    | some content =>
      rw [load_shader_open os fs kw fuel p content W hfile] at h
      simp only [Option.map_eq_some'] at h
      obtain ⟨out, hout, rfl⟩ := h
      have hspec := process_lines_calls_spec os kw _ _ p ih _ _ _ hout
      rw [load_shader_calls_open os fs kw fuel p content W hfile]
      simpa [hW] using hspec

/-- C17: a call of `load_shader` on a duplicate-free `already_included` leaves it
duplicate-free, and so does the line loop after any number of lines of the
file, where `already_included` is the set at the start followed by the paths
recursed into so far. Starting from the empty set, the root followed by the
paths recursed into holds no path twice. -/
theorem visited_set_has_no_duplicates (os : HostOS) (fs : FS) (kw : Str) (fuel : Nat)
    (p : Str) (V : List Str) (hV : V.Nodup) :
    (∀ o, load_shader os fs kw fuel p V = some o → o.already_included.Nodup) ∧
    (∀ (content : Str) (done todo : List Str) (mid : Outcome), fs p = some content →
      getlines content = done ++ todo →
      process_lines os kw (load_shader os fs kw fuel) p done
        { ret_data := [], already_included := if V = [] then [p] else V, cout := [] } =
        some mid →
      mid.already_included.Nodup ∧
      mid.already_included = (if V = [] then [p] else V) ++
        process_lines_calls os kw (load_shader os fs kw fuel) (load_shader_calls os fs kw fuel) p
          done { ret_data := [], already_included := if V = [] then [p] else V, cout := [] }) ∧
    (∀ o, load_shader os fs kw (fuel + 1) p [] = some o →
      (p :: load_shader_calls os fs kw (fuel + 1) p []).Nodup) := by
  have hstart : (if V = [] then [p] else V).Nodup := by
    by_cases h0 : V = []
    · simp [h0]
    · simpa [h0] using hV
  refine ⟨fun o h => load_shader_nodup os fs kw fuel p V o hV h, ?_, ?_⟩
  · intro content done todo mid _ _ hmid
    have hnd := process_lines_nodup os kw _ p (load_shader_nodup os fs kw fuel) _ _ _
      (by exact hstart) hmid
    have hspec := process_lines_calls_spec os kw _ _ p (load_shader_calls_spec os fs kw fuel)
      _ _ _ hmid
    exact ⟨hnd, hspec⟩
  · intro o h
    cases hfile : fs p with
    | none =>
      rw [load_shader_calls_closed os fs kw fuel p [] hfile]
      simp
    | some content =>
      rw [load_shader_open os fs kw fuel p content [] hfile] at h
      simp only [Option.map_eq_some'] at h
      obtain ⟨out, hout, _⟩ := h
      simp only [if_true] at hout
      have hnd := process_lines_nodup os kw _ p (load_shader_nodup os fs kw fuel) _ _ _
        (by simp) hout
      have hspec := process_lines_calls_spec os kw _ _ p (load_shader_calls_spec os fs kw fuel)
        _ _ _ hout
      rw [load_shader_calls_open os fs kw fuel p content [] hfile]
      simp only [if_true]
      rw [hspec] at hnd
      simpa using hnd

/-- C17 on the diamond: the root `a.glsl` and the paths recursed into, `b.glsl`,
`d.glsl`, `c.glsl`, are four different paths. -/
theorem visited_set_has_no_duplicates_witness :
    load_shader_calls .linux fs_diamond kw_inc 3 "a.glsl".toList [] =
      ["b.glsl".toList, "d.glsl".toList, "c.glsl".toList] ∧
    ("a.glsl".toList :: load_shader_calls .linux fs_diamond kw_inc 3 "a.glsl".toList []).Nodup :=
  ⟨by decide, (visited_set_has_no_duplicates .linux fs_diamond kw_inc 2 "a.glsl".toList []
    List.nodup_nil).2.2
    { ret_data := "b1\ndd\n\n\nc2\n\n".toList, already_included := [], cout := [] }
    (by decide)⟩

end glsl_include
